import Mathlib

/-!
# unlikezy/config: scalar codecs and the Parse pipeline

A shallow embedding of `src/config.go` and `src/duration/duration.go`.  Go `string` and `[]byte` values are
lists of bytes (`Bytes`), `int64` is `Int` reduced by `wrapInt64` wherever the
Go code can overflow, `uint64` is `Nat` reduced modulo `2^64`, `uint8` is `Nat`.
A method with a pointer receiver takes the receiver's old value and returns
the new value together with the error (`none` for Go's `nil`).
-/

set_option autoImplicit false

namespace Config

/-- Go `string` / `[]byte`: a sequence of bytes. -/
abbrev Bytes := List Nat

/-- The bytes of an ASCII literal. -/
def ascii (s : String) : Bytes := s.toList.map Char.toNat

/-- Go `error` values that the package can return. -/
inductive Error where
  /-- Built by `fmt.Errorf`: the formatted message. -/
  | msg (m : Bytes)
  /-- A `*strconv.NumError` of `ParseInt` with `Err = ErrSyntax` for input `num`. -/
  | numSyntax (num : Bytes)
  /-- A `*strconv.NumError` of `ParseInt` with `Err = ErrRange` for input `num`. -/
  | numRange (num : Bytes)
  /-- An error reported by the operating system or by the TOML reader. -/
  | host (m : Bytes)
  /-- Built by `errors.Annotatef cause note`. -/
  | annotated (cause : Error) (note : Bytes)
  deriving DecidableEq, Repr

/-! ## Standard-library functions used by the codecs -/

/-- `strings.ToLower`: a string of ASCII bytes only has its letters `A`..`Z`
moved to `a`..`z`; any other string goes through the Unicode case tables,
which are the argument `unicodeLower`. -/
def toLower (unicodeLower : Bytes → Bytes) (s : Bytes) : Bytes :=
  if s.all (fun c => decide (c < 128)) then
    s.map (fun c => if 65 ≤ c ∧ c ≤ 90 then c + 32 else c)
  else unicodeLower s

/-- The digit loop of `fmt`'s `fmtInteger` in base 10: writes the digits of `u`
in front of `buf`.  The first argument bounds the number of iterations. -/
def fmtDigits : Nat → Nat → Bytes → Bytes
  | 0, u, buf => (48 + u) :: buf
  | fuel + 1, u, buf =>
    if 10 ≤ u then fmtDigits fuel (u / 10) ((48 + (u - u / 10 * 10)) :: buf)
    else (48 + u) :: buf

/-- `fmt.Sprintf("%d", v)` for an `int64` argument. -/
def sprintInt (v : Int) : Bytes :=
  if v < 0 then 45 :: fmtDigits v.natAbs v.natAbs [] else fmtDigits v.natAbs v.natAbs []

/-- The loop of `strconv.ParseUint(s, 10, 64)` over the remaining bytes, with
accumulator `n`; `s0` is the whole input, kept for the error value.  In base 10
a letter is a digit value of 10 or more, hence a syntax error like any other
byte that is not a decimal digit. -/
def parseUintLoop (s0 : Bytes) : Bytes → Nat → Except Error Nat
  | [], n => .ok n
  | c :: rest, n =>
    if 48 ≤ c ∧ c ≤ 57 then
      if 1844674407370955162 ≤ n then .error (.numRange s0)
      else
        let n10 := n * 10 % 18446744073709551616
        let n1 := (n10 + (c - 48)) % 18446744073709551616
        if n1 < n10 ∨ 18446744073709551615 < n1 then .error (.numRange s0)
        else parseUintLoop s0 rest n1
    else .error (.numSyntax s0)

/-- `strconv.ParseUint(s, 10, 64)`. -/
def parseUint (s : Bytes) : Except Error Nat :=
  if s = [] then .error (.numSyntax s) else parseUintLoop s s 0

/-- `strconv.ParseInt(s, 10, 64)`. -/
def parseInt (s : Bytes) : Except Error Int :=
  match s with
  | [] => .error (.numSyntax s)
  | c :: rest =>
    let neg := decide (c = 45)
    let body := if c = 43 ∨ c = 45 then rest else s
    match parseUint body with
    | .error (.numRange _) => .error (.numRange s)
    | .error _ => .error (.numSyntax s)
    | .ok un =>
      if ¬ neg ∧ 9223372036854775808 ≤ un then .error (.numRange s)
      else if neg ∧ 9223372036854775808 < un then .error (.numRange s)
      else if neg then .ok (-(un : Int)) else .ok (un : Int)

/-- Reduction of an integer to the `int64` range (two's complement wrap). -/
def wrapInt64 (z : Int) : Int :=
  (z + 9223372036854775808) % 18446744073709551616 - 9223372036854775808

/-! ## LogLevel -/

def LogLevelNull : Nat := 0
def LogLevelTrace : Nat := 1
def LogLevelDebug : Nat := 2
def LogLevelInfo : Nat := 3
def LogLevelWarning : Nat := 4
def LogLevelError : Nat := 5
def LogLevelFatal : Nat := 6

/-- The map `logLevelMap` from a name to its level. -/
def logLevelMap : List (Bytes × Nat) :=
  [(ascii "trace", LogLevelTrace), (ascii "debug", LogLevelDebug),
   (ascii "info", LogLevelInfo), (ascii "warn", LogLevelWarning),
   (ascii "error", LogLevelError), (ascii "fatal", LogLevelFatal)]

/-- The map `logLevelStrMap` from a level to its name. -/
def logLevelStrMap : List (Nat × Bytes) :=
  [(LogLevelTrace, ascii "trace"), (LogLevelDebug, ascii "debug"),
   (LogLevelInfo, ascii "info"), (LogLevelWarning, ascii "warn"),
   (LogLevelError, ascii "error"), (LogLevelFatal, ascii "fatal")]

/-- Type `LogLevel uint8`. -/
abbrev LogLevel := Nat

/-- Method `(l *LogLevel) UnmarshalText(text)`: the receiver after the call
and the returned error. -/
def LogLevel.UnmarshalText (unicodeLower : Bytes → Bytes) (l : LogLevel) (text : Bytes) :
    LogLevel × Option Error :=
  match logLevelMap.lookup (toLower unicodeLower text) with
  | none => (l, some (.msg (ascii "not support log level " ++ text)))
  | some level => (level, none)

/-- Method `(l LogLevel) String()`. -/
def LogLevel.String (l : LogLevel) : Bytes :=
  match logLevelStrMap.lookup l with
  | some name => name
  | none => ascii "unknown"

/-- Method `(l LogLevel) Level()`. -/
def LogLevel.Level (l : LogLevel) : Nat := l

/-- Method `(l LogLevel) Value()`. -/
def LogLevel.Value (l : LogLevel) : Nat := l

/-! ## LogSize -/

/-- Type `LogSize int64`. -/
abbrev LogSize := Int

/-- Method `(l *LogSize) UnmarshalText(text)`: the receiver after the call and
the returned error. -/
def LogSize.UnmarshalText (unicodeLower : Bytes → Bytes) (l : LogSize) (text : Bytes) :
    LogSize × Option Error :=
  if text.length < 2 then (l, some (.msg (ascii "not support log size " ++ text)))
  else
    let c := toLower unicodeLower (text.drop (text.length - 1))
    match parseInt (text.take (text.length - 1)) with
    | .error e => (l, some e)
    | .ok n =>
      if c = ascii "k" then (wrapInt64 (n * 1024), none)
      else if c = ascii "m" then (wrapInt64 (n * (1024 * 1024)), none)
      else if c = ascii "g" then (wrapInt64 (n * (1024 * 1024 * 1024)), none)
      else (n, none)

/-- Method `(l LogSize) String()`. -/
def LogSize.String (l : LogSize) : Bytes :=
  if l < 1024 then sprintInt l ++ ascii "B"
  else if l < 1024 * 1024 then sprintInt (l / 1024) ++ ascii "K"
  else if l < 1024 * 1024 * 1024 then sprintInt (l / 1024 / 1024) ++ ascii "M"
  else if l < 1024 * 1024 * 1024 * 1024 then sprintInt (l / 1024 / 1024 / 1024) ++ ascii "G"
  else ascii "unknown"

/-- Method `(l LogSize) Size()`. -/
def LogSize.Size (l : LogSize) : Int := l

/-- Method `(l LogSize) Value()`. -/
def LogSize.Value (l : LogSize) : Int := l

/-! ## os.Expand -/

/-- Function `isShellSpecialVar` of package `os`. -/
def isShellSpecialVar (c : Nat) : Bool :=
  c = 42 || c = 35 || c = 36 || c = 64 || c = 33 || c = 63 || c = 45 ||
    (decide (48 ≤ c) && decide (c ≤ 57))

/-- Function `isAlphaNum` of package `os`. -/
def isAlphaNum (c : Nat) : Bool :=
  c = 95 || (decide (48 ≤ c) && decide (c ≤ 57)) || (decide (97 ≤ c) && decide (c ≤ 122)) ||
    (decide (65 ≤ c) && decide (c ≤ 90))

/-- Function `getShellName` of package `os`, called on the text after a `$`:
the name found and the number of bytes it takes. -/
def getShellName (s : Bytes) : Bytes × Nat :=
  match s with
  | [] => ([], 0)
  | 123 :: rest =>
    if (match rest with
        | c :: 125 :: _ => isShellSpecialVar c
        | _ => false) then (rest.take 1, 3)
    else if 125 ∈ rest then
      if rest.indexOf 125 = 0 then ([], 2)
      else (rest.take (rest.indexOf 125), rest.indexOf 125 + 2)
    else ([], 1)
  | c :: _ =>
    if isShellSpecialVar c then ([c], 1)
    else (s.takeWhile isAlphaNum, (s.takeWhile isAlphaNum).length)

/-- The loop of `os.Expand` on the text still to be read; the first argument
bounds the number of iterations. -/
def expandLoop (mapping : Bytes → Bytes) : Nat → Bytes → Bytes
  | 0, s => s
  | _ + 1, [] => []
  | _ + 1, [c] => [c]
  | fuel + 1, c :: d :: rest =>
    if c = 36 then
      let nw := getShellName (d :: rest)
      let piece :=
        if nw.1 = [] ∧ 0 < nw.2 then []
        else if nw.1 = [] then [c]
        else mapping nw.1
      piece ++ expandLoop mapping fuel ((d :: rest).drop nw.2)
    else c :: expandLoop mapping fuel (d :: rest)

/-- Function `os.Expand(s, mapping)`. -/
def Expand (s : Bytes) (mapping : Bytes → Bytes) : Bytes :=
  expandLoop mapping s.length s

/-! ## The target structure and the two libraries that write into it -/

/-- A scalar read from a TOML file. -/
inductive TomlValue where
  | str (s : Bytes)
  | int (n : Int)
  | bool (b : Bool)
  deriving DecidableEq, Repr

/-- The value held by one field of a target structure. -/
inductive Value where
  | str (s : Bytes)
  | int (n : Int)
  | bool (b : Bool)
  | level (l : LogLevel)
  | size (l : LogSize)
  deriving DecidableEq, Repr

/-- Whether a field holds the zero value of its type. -/
def Value.isZero : Value → Bool
  | .str s => s = []
  | .int n => n = 0
  | .bool b => !b
  | .level l => l = 0
  | .size l => l = 0

/-- One field of a target structure: the key of its `toml` tag, the value it
holds and the value of its `default` tag, if it has one. -/
structure Field where
  key : Bytes
  value : Value
  dflt : Option Value
  deriving DecidableEq, Repr

/-- A target structure: its fields in declaration order. -/
abbrev Target := List Field

/-- A parsed TOML document: key/value pairs, no key twice. -/
structure TomlDoc where
  entries : List (Bytes × TomlValue)
  nodup : (entries.map Prod.fst).Nodup

/-- What the package takes from outside the repository: the file system, the
process environment, the TOML reader and writer, and the Unicode case tables. -/
structure Host where
  /-- The file system as `ioutil.ReadFile` meets it: the content of the file at
  a path, or the operation that failed (`open` or `read`) with the reason given
  by the operating system. -/
  readFile : Bytes → Except (Bytes × Bytes) Bytes
  /-- Function `os.Getenv`: the empty string for an unset variable. -/
  getenv : Bytes → Bytes
  /-- The reading of TOML text into a document, the first half of `toml.Decode`. -/
  tomlParse : Bytes → Except Error TomlDoc
  /-- The text written by `toml.NewEncoder(..).Encode`. -/
  tomlEncode : Target → Bytes
  /-- The Unicode path of `strings.ToLower`. -/
  unicodeLower : Bytes → Bytes

/-- Modelled from the spec: `defaults.SetDefaults` of the library
`github.com/unlikezy/go-defaults`, which is not part of the sources.  Spec 4.4:
each field currently holding its type's zero value is set to the field's
declared default, if any is declared; fields already non-zero are left alone. -/
def SetDefaults (c : Target) : Target :=
  c.map fun f =>
    match f.dflt with
    | some d => if f.value.isZero then { f with value := d } else f
    | none => f

/-- Modelled from the spec: how the TOML library stores one scalar of the file
into a field (spec 6: scalars map to the codec types through their text
unmarshal hooks; spec 4.3: a codec failure surfaces that codec's error).  The
field's current value gives the field's type. -/
def unifyField (unicodeLower : Bytes → Bytes) (cur : Value) (tv : TomlValue) :
    Except Error Value :=
  match cur, tv with
  | .str _, .str s => .ok (.str s)
  | .int _, .int n => .ok (.int n)
  | .bool _, .bool b => .ok (.bool b)
  | .level l, .str s =>
    match LogLevel.UnmarshalText unicodeLower l s with
    | (l1, none) => .ok (.level l1)
    | (_, some e) => .error e
  | .size l, .str s =>
    match LogSize.UnmarshalText unicodeLower l s with
    | (l1, none) => .ok (.size l1)
    | (_, some e) => .error e
  | _, _ => .error (.host (ascii "toml: incompatible types"))

/-- The first field of the target with the given key. -/
def getField (k : Bytes) (c : Target) : Option Field :=
  c.find? fun f => decide (f.key = k)

/-- Store `v` into the first field of the target with the given key. -/
def setField (k : Bytes) (v : Value) : Target → Target
  | [] => []
  | f :: fs => if f.key = k then { f with value := v } :: fs else f :: setField k v fs

/-- Modelled from the spec: the second half of `toml.Decode` of the library
`github.com/BurntSushi/toml`, which is not part of the sources.  Spec 4.3: keys
are matched to fields by the declared name; unrecognized keys are ignored;
fields with no key in the text are left untouched; decoding only overwrites the
fields it matches.  The entries are stored one after the other and the first
failure stops the decoding, keeping what was stored before it. -/
def unifyEntries (unicodeLower : Bytes → Bytes) :
    List (Bytes × TomlValue) → Target → Target × Option Error
  | [], c => (c, none)
  | (k, tv) :: rest, c =>
    match getField k c with
    | none => unifyEntries unicodeLower rest c
    | some f =>
      match unifyField unicodeLower f.value tv with
      | .error e => (c, some e)
      | .ok v => unifyEntries unicodeLower rest (setField k v c)

/-- Modelled from the spec: `toml.Decode(text, c)`, reading then storing. -/
def tomlDecode (host : Host) (text : Bytes) (c : Target) : Target × Option Error :=
  match host.tomlParse text with
  | .error e => (c, some e)
  | .ok doc => unifyEntries host.unicodeLower doc.entries c

/-! ## The pipeline of config.go -/

/-- One piece of text written to standard output. -/
inductive Output where
  /-- The line `config file:<path>`. -/
  | confFile (path : Bytes)
  /-- An error printed by `fmt.Println(err)`. -/
  | failure (e : Error)
  /-- The resolved configuration printed by `fmt.Printf("\n%s", SprintToml(c))`. -/
  | conf (text : Bytes)
  deriving DecidableEq, Repr

/-- The package-level variables and the standard output of the process. -/
structure Proc where
  /-- Value of `*ConfPath`. -/
  ConfPath : Bytes
  /-- Value of `*PrintConf`. -/
  PrintConf : Bool
  /-- Whether `printFilepathOnce` has already run its function. -/
  onceDone : Bool
  /-- Everything printed so far, oldest first. -/
  stdout : List Output
  deriving DecidableEq, Repr

/-- The function `mapper` of `DecodeWithEnv`. -/
def mapper (host : Host) (escapeDollar : Bytes) : Bytes :=
  if escapeDollar = ascii "$" then ascii "$" else host.getenv escapeDollar

/-- Function `ioutil.ReadFile(fpath)`: the content of the file, or the
`*os.PathError` of the failed operation, whose message is the operation, a
blank, the path, `: ` and the reason. -/
def ReadFile (host : Host) (fpath : Bytes) : Except Error Bytes :=
  match host.readFile fpath with
  | .ok cf => .ok cf
  | .error (op, reason) => .error (.host (op ++ ascii " " ++ fpath ++ ascii ": " ++ reason))

/-- Function `DecodeWithEnv(fpath, c)`: the target after the call and the
returned error. -/
def DecodeWithEnv (host : Host) (fpath : Bytes) (c : Target) : Target × Option Error :=
  match ReadFile host fpath with
  | .error err => (c, some (.annotated err (ascii "DecodeWithEnv->ReadFile")))
  | .ok cf =>
    let confStr := Expand cf (mapper host)
    match tomlDecode host confStr c with
    | (c1, some err) => (c1, some (.annotated err (ascii "DecodeWithEnv->Decode")))
    | (c1, none) => (c1, none)

/-- Function `SprintToml(c)`. -/
def SprintToml (host : Host) (c : Target) : Bytes := host.tomlEncode c

/-- Function `ParseConfigWithoutDefaults(c)`. -/
def ParseConfigWithoutDefaults (host : Host) (p : Proc) (c : Target) :
    Target × Proc × Option Error :=
  match DecodeWithEnv host p.ConfPath c with
  | (c1, some err) => (c1, { p with stdout := p.stdout ++ [.failure err] }, some err)
  | (c1, none) => (c1, p, none)

/-- The call `printFilepathOnce.Do(..)` of `Parse`. -/
def printFilepath (p : Proc) : Proc :=
  if p.onceDone then p
  else if p.PrintConf then
    { p with onceDone := true, stdout := p.stdout ++ [.confFile p.ConfPath] }
  else { p with onceDone := true }

/-- Function `Parse(c)`: the target and the process state after the call, and
the returned error. -/
def Parse (host : Host) (p : Proc) (c : Target) : Target × Proc × Option Error :=
  let c0 := SetDefaults c
  let p0 := printFilepath p
  match ParseConfigWithoutDefaults host p0 c0 with
  | (c1, p1, some err) => (c1, p1, some err)
  | (c1, p1, none) =>
    if p1.PrintConf then
      (c1, { p1 with stdout := p1.stdout ++ [.conf (SprintToml host c1)] }, none)
    else (c1, p1, none)

/-- Function `ParseConfig(c)`. -/
def ParseConfig (host : Host) (p : Proc) (c : Target) : Target × Proc × Option Error :=
  Parse host p c

/-- Function `ParseConfigWithPath(c, path)`. -/
def ParseConfigWithPath (host : Host) (p : Proc) (c : Target) (path : Bytes) :
    Target × Proc × Option Error :=
  let c0 := SetDefaults c
  let p0 := if p.PrintConf then { p with stdout := p.stdout ++ [.confFile path] } else p
  match DecodeWithEnv host path c0 with
  | (c1, some err) => (c1, { p0 with stdout := p0.stdout ++ [.failure err] }, some err)
  | (c1, none) =>
    if p0.PrintConf then
      (c1, { p0 with stdout := p0.stdout ++ [.conf (SprintToml host c1)] }, none)
    else (c1, p0, none)

/-! ## Notions of the specification -/

/-- A decimal digit `0`..`9`. -/
def isDigit (c : Nat) : Bool := decide (48 ≤ c) && decide (c ≤ 57)

/-- The number written by a sequence of decimal digits. -/
def decimalValue (ds : Bytes) : Nat := ds.foldl (fun a d => 10 * a + (d - 48)) 0

/-- The integer written by a base-10 text: an optional sign `+` or `-` and
then one or more decimal digits; `none` for any other text. -/
def decimalInt (s : Bytes) : Option Int :=
  match s with
  | 45 :: ds => if ds ≠ [] ∧ ds.all isDigit = true then some (-(decimalValue ds : Int)) else none
  | 43 :: ds => if ds ≠ [] ∧ ds.all isDigit = true then some (decimalValue ds : Int) else none
  | ds => if ds ≠ [] ∧ ds.all isDigit = true then some (decimalValue ds : Int) else none

/-- A text that is a valid base-10 signed 64-bit integer. -/
def validInt64Text (s : Bytes) : Prop :=
  ∃ n : Int, decimalInt s = some n ∧ -9223372036854775808 ≤ n ∧ n ≤ 9223372036854775807

/-- The six level names. -/
def levelNames : List Bytes :=
  [ascii "trace", ascii "debug", ascii "info", ascii "warn", ascii "error", ascii "fatal"]

/-- The text `t` is the name `name` written in some mix of upper and lower case. -/
def caseVariant (t name : Bytes) : Prop :=
  List.Forall₂ (fun c d => c = d ∨ c + 32 = d) t name

/-- The units of a log size: the suffix byte `B`, `K`, `M`, `G` and the size. -/
def sizeUnits : List (Nat × Int) :=
  [(66, 1), (75, 1024), (77, 1024 * 1024), (71, 1024 * 1024 * 1024)]

/-- The unit `u` is the largest unit whose size does not exceed `v`, and `B`
when `v` is zero. -/
def largestUnit (u : Nat × Int) (v : Int) : Prop :=
  u ∈ sizeUnits ∧ ((u.2 ≤ v ∧ ∀ w ∈ sizeUnits, w.2 ≤ v → w.2 ≤ u.2) ∨ (v = 0 ∧ u = (66, 1)))

instance (u : Nat × Int) (v : Int) : Decidable (largestUnit u v) := by
  unfold largestUnit
  infer_instance

/-- What `parseInt` does after the sign has been read: `neg` tells whether the
sign was `-`, `body` is the text after the sign and `s` the whole text. -/
def parseIntBody (s : Bytes) (neg : Bool) (body : Bytes) : Except Error Int :=
  match parseUint body with
  | .error (.numRange _) => .error (.numRange s)
  | .error _ => .error (.numSyntax s)
  | .ok un =>
    if ¬ neg ∧ 9223372036854775808 ≤ un then .error (.numRange s)
    else if neg ∧ 9223372036854775808 < un then .error (.numRange s)
    else if neg then .ok (-(un : Int)) else .ok (un : Int)

/-- An integer that fits in a signed 64-bit integer. -/
def fitsInt64 (z : Int) : Prop := -9223372036854775808 ≤ z ∧ z ≤ 9223372036854775807

instance (z : Int) : Decidable (fitsInt64 z) := by
  unfold fitsInt64
  infer_instance

/-- The value a field holds before the file is read: the value set by calling
code when that value is non-zero, else the declared default when there is one. -/
def presetOrDefault (f : Field) : Value :=
  if f.value.isZero then
    match f.dflt with
    | some d => d
    | none => f.value
  else f.value

/-! ## A concrete host and target -/

/-- The document of the file `port = 9090`. -/
def exampleDoc : TomlDoc := ⟨[(ascii "port", .int 9090)], by decide⟩

/-- A host with one file, `../conf/config.toml`, holding the line `port = 9090`,
an empty environment, and a TOML reader that knows this line only. -/
def exampleHost : Host where
  readFile := fun path =>
    if path = ascii "../conf/config.toml" then .ok (ascii "port = 9090")
    else .error (ascii "open", ascii "no such file or directory")
  getenv := fun _ => []
  tomlParse := fun text =>
    if text = ascii "port = 9090" then .ok exampleDoc
    else .error (.host (ascii "toml: syntax error"))
  tomlEncode := fun _ => []
  unicodeLower := fun s => s

/-- The process at start: default path, printing enabled, nothing printed. -/
def exampleProc : Proc :=
  { ConfPath := ascii "../conf/config.toml", PrintConf := true, onceDone := false, stdout := [] }

/-- A target whose field `port` was set to 8080 by calling code and has the
default 80, and whose field `name` was left at zero and has the default `svc`. -/
def exampleTarget : Target :=
  [{ key := ascii "port", value := .int 8080, dflt := some (.int 80) },
   { key := ascii "name", value := .str [], dflt := some (.str (ascii "svc")) },
   { key := ascii "user", value := .str (ascii "root"), dflt := some (.str (ascii "nobody")) }]

/-! ## Notions for the expansion, the error text and the printed lines -/

/-- A byte of a variable name: a letter, a digit or an underscore. -/
def nameByte (c : Nat) : Prop :=
  c = 95 ∨ (48 ≤ c ∧ c ≤ 57) ∨ (97 ≤ c ∧ c ≤ 122) ∨ (65 ≤ c ∧ c ≤ 90)

instance (c : Nat) : Decidable (nameByte c) := by
  unfold nameByte
  infer_instance

/-- Method `Error()` of an error value: the message.  The message of a
`*strconv.NumError` quotes the input with `strconv.Quote`, the argument `quote`;
the message of an annotated error is the annotation, `: ` and the message of
its cause. -/
def Error.text (quote : Bytes → Bytes) : Error → Bytes
  | .msg m => m
  | .numSyntax num => ascii "strconv.ParseInt: parsing " ++ quote num ++ ascii ": invalid syntax"
  | .numRange num =>
    ascii "strconv.ParseInt: parsing " ++ quote num ++ ascii ": value out of range"
  | .host m => m
  | .annotated cause note => note ++ ascii ": " ++ Error.text quote cause

/-- How many `config file:<path>` lines an output holds. -/
def confFileLines (out : List Output) : Nat :=
  out.countP fun o =>
    match o with
    | .confFile _ => true
    | _ => false

/-- How many resolved-configuration texts an output holds. -/
def confTexts (out : List Output) : Nat :=
  out.countP fun o =>
    match o with
    | .conf _ => true
    | _ => false

/-- A sequence of calls to `Parse` in one process: each call is made on its own
target, after the print toggle `*PrintConf` has been given the listed value. -/
def runParses (host : Host) : List (Bool × Target) → Proc → Proc
  | [], p => p
  | (toggle, c) :: rest, p =>
    runParses host rest (Parse host { p with PrintConf := toggle } c).2.1

/-- A host whose environment holds `HOME=/root` and whose file
`../conf/config.toml` holds the line `path = "$\x7bHOME\x7d/data"`. -/
def envHost : Host where
  readFile := fun path =>
    if path = ascii "../conf/config.toml" then .ok (ascii "path = \"$\x7bHOME\x7d/data\"")
    else .error (ascii "open", ascii "no such file or directory")
  getenv := fun name => if name = ascii "HOME" then ascii "/root" else []
  tomlParse := fun text =>
    if text = ascii "path = \"/root/data\"" then
      .ok ⟨[(ascii "path", .str (ascii "/root/data"))], by decide⟩
    else .error (.host (ascii "toml: syntax error"))
  tomlEncode := fun _ => []
  unicodeLower := fun s => s

/-- A target with one text field `path`, left empty, without default. -/
def pathTarget : Target :=
  [{ key := ascii "path", value := .str [], dflt := none }]

/-- A host whose file `../conf/config.toml` holds the line `level = "bogus"`. -/
def levelHost : Host where
  readFile := fun path =>
    if path = ascii "../conf/config.toml" then .ok (ascii "level = \"bogus\"")
    else .error (ascii "open", ascii "no such file or directory")
  getenv := fun _ => []
  tomlParse := fun text =>
    if text = ascii "level = \"bogus\"" then
      .ok ⟨[(ascii "level", .str (ascii "bogus"))], by decide⟩
    else .error (.host (ascii "toml: syntax error"))
  tomlEncode := fun _ => []
  unicodeLower := fun s => s

/-- A target with one field `level` of type `LogLevel`, left at zero, with the
default `info`. -/
def levelTarget : Target :=
  [{ key := ascii "level", value := .level 0, dflt := some (.level 3) }]

/-- The process at start with a path at which the example host has no file. -/
def missingProc : Proc :=
  { ConfPath := ascii "missing.toml", PrintConf := true, onceDone := false, stdout := [] }

/-- The result `res` of a call that reads the file `fpath` into the target `c`
reports the cause of a failure: it is `nil` exactly when the file is read and
decoded; after a failed read it is the error of `ioutil.ReadFile` annotated
with `DecodeWithEnv->ReadFile`, and its message names the path and holds the
reason; after a failed decoding it is the decoder's error annotated with
`DecodeWithEnv->Decode`, and its message is the annotation, `: ` and the
message of that error. -/
def reportsCause (host : Host) (quote : Bytes → Bytes) (fpath : Bytes) (c : Target)
    (res : Option Error) : Prop :=
  (res = none ↔
    ∃ cf, host.readFile fpath = .ok cf ∧
      (tomlDecode host (Expand cf (mapper host)) c).2 = none) ∧
  ∀ err, res = some err →
    (∃ op reason, host.readFile fpath = .error (op, reason) ∧
      err = .annotated (.host (op ++ ascii " " ++ fpath ++ ascii ": " ++ reason))
        (ascii "DecodeWithEnv->ReadFile") ∧
      fpath <:+: err.text quote ∧ reason <:+: err.text quote) ∨
    (∃ cf cause, host.readFile fpath = .ok cf ∧
      (tomlDecode host (Expand cf (mapper host)) c).2 = some cause ∧
      err = .annotated cause (ascii "DecodeWithEnv->Decode") ∧
      cause.text quote <:+: err.text quote ∧
      err.text quote = ascii "DecodeWithEnv->Decode: " ++ cause.text quote)

/-- The multiplier of a unit byte: 1024 for `k`, 1024^2 for `m`, 1024^3 for `g`,
in either case, and 1 for any other byte. -/
def unitMultiplier (b : Nat) : Int :=
  if b = 107 ∨ b = 75 then 1024
  else if b = 109 ∨ b = 77 then 1024 * 1024
  else if b = 103 ∨ b = 71 then 1024 * 1024 * 1024
  else 1

/-! ## Package duration and the functions of package time behind it

`src/duration/duration.go` wraps `time.Duration.String` and
`time.ParseDuration`.  They are embedded here as the Go standard library has
them today, where `ParseDuration` adds the components up in a `uint64` and
accepts the text of the minimum value.  A `float64` is the rational number it
stands for, and every `float64` operation is the exact operation followed by
`round64`, the rounding to the nearest `float64`. -/

/-- Type `Duration`: a count of nanoseconds in an `int64`. -/
abbrev Duration := Int

/-- The integer nearest to a rational, the even one of two equally near. -/
def halfEven (t : ℚ) : Int :=
  let fl := Int.floor t
  let r := t - fl
  if r < 1 / 2 then fl
  else if 1 / 2 < r then fl + 1
  else if fl % 2 = 0 then fl else fl + 1

/-- The `float64` nearest to a non-negative rational, with ties to the even
significand: a significand of 53 bits times a power of two.  The values met in
`ParseDuration` lie between 10^-19 and 10^32, far inside the range of the
normal `float64` numbers, so the exponent is not bounded here. -/
def round64 (q : ℚ) : ℚ :=
  if q ≤ 0 then 0
  else
    let e0 : Int := (Nat.log2 q.num.toNat : Int) - (Nat.log2 q.den : Int) - 52
    let e : Int := if q < (2 : ℚ) ^ (e0 + 52) then e0 - 1 else e0
    (halfEven (q / (2 : ℚ) ^ e) : ℚ) * (2 : ℚ) ^ e

/-- The conversion `uint64(x)` of a non-negative `float64`: the integer part. -/
def floatToUint64 (x : ℚ) : Nat := (Int.floor x).toNat % 18446744073709551616

/-- The loop of `fmtFrac` of package `time`: `n` digits of `v` are read from
the right and written in front of `buf` once a digit other than zero has been
met; the result is the buffer, what is left of `v`, and whether a digit has
been written. -/
def fmtFracLoop : Nat → Nat → Bool → Bytes → Bytes × Nat × Bool
  | 0, v, print, buf => (buf, v, print)
  | n + 1, v, print, buf =>
    let digit := v % 10
    let print1 := print || decide (digit ≠ 0)
    fmtFracLoop n (v / 10) print1 (if print1 then (digit + 48) :: buf else buf)

/-- Function `fmtFrac(buf, v, prec)` of package `time`: the buffer with the
fraction `v / 10^prec` written in front, without trailing zeros and without the
point when the fraction is zero, and the integer part of `v / 10^prec`. -/
def fmtFrac (buf : Bytes) (v prec : Nat) : Bytes × Nat :=
  let r := fmtFracLoop prec v false buf
  (if r.2.2 then 46 :: r.1 else r.1, r.2.1)

/-- The loop of `fmtInt` of package `time`; the first argument bounds the number
of iterations. -/
def fmtIntLoop : Nat → Nat → Bytes → Bytes
  | 0, _, buf => buf
  | fuel + 1, v, buf =>
    if 0 < v then fmtIntLoop fuel (v / 10) ((v % 10 + 48) :: buf) else buf

/-- Function `fmtInt(buf, v)` of package `time`: the buffer with the decimal
digits of `v` written in front. -/
def fmtInt (buf : Bytes) (v : Nat) : Bytes :=
  if v = 0 then 48 :: buf else fmtIntLoop v v buf

/-- Method `time.Duration.String()`, through `format`: the text of a duration
such as `72h3m0.5s`, `1.5ms` or `0s`. -/
def durationFormat (d : Int) : Bytes :=
  let u0 := (d % 18446744073709551616).toNat
  let neg := decide (d < 0)
  let u := if neg then (18446744073709551616 - u0) % 18446744073709551616 else u0
  if u < 1000000000 then
    if u = 0 then ascii "0s"
    else
      let prec := if u < 1000 then 0 else if u < 1000000 then 3 else 6
      let unitText :=
        if u < 1000 then ascii "ns" else if u < 1000000 then [194, 181, 115] else ascii "ms"
      let r := fmtFrac unitText u prec
      let buf := fmtInt r.1 r.2
      if neg then 45 :: buf else buf
  else
    let r := fmtFrac (ascii "s") u 9
    let buf := fmtInt r.1 (r.2 % 60)
    let u1 := r.2 / 60
    let buf :=
      if 0 < u1 then
        let buf1 := fmtInt (109 :: buf) (u1 % 60)
        let u2 := u1 / 60
        if 0 < u2 then fmtInt (104 :: buf1) u2 else buf1
      else buf
    if neg then 45 :: buf else buf

/-- Function `leadingInt(s)` of package `time`, with the number read so far:
the leading digits as a number and the rest of the text, or `none` when the
number passes 2^63. -/
def leadingInt : Bytes → Nat → Option (Nat × Bytes)
  | [], x => some (x, [])
  | c :: rest, x =>
    if c < 48 ∨ 57 < c then some (x, c :: rest)
    else if 922337203685477580 < x then none
    else if 9223372036854775808 < x * 10 + c - 48 then none
    else leadingInt rest (x * 10 + c - 48)

/-- Function `leadingFraction(s)` of package `time`, with the number read so far,
its scale and the overflow mark: the leading digits as a number, the scale
`10^digits` as a `float64`, and the rest of the text; digits that would make the
number overflow are skipped. -/
def leadingFraction : Bytes → Nat → ℚ → Bool → Nat × ℚ × Bytes
  | [], x, scale, _ => (x, scale, [])
  | c :: rest, x, scale, overflow =>
    if c < 48 ∨ 57 < c then (x, scale, c :: rest)
    else if overflow then leadingFraction rest x scale true
    else if 922337203685477580 < x then leadingFraction rest x scale true
    else if 9223372036854775808 < x * 10 + c - 48 then leadingFraction rest x scale true
    else leadingFraction rest (x * 10 + c - 48) (round64 (scale * 10)) false

/-- The map `unitMap` of package `time`: the nanoseconds of each unit.  The
micro sign and the Greek letter mu are two bytes each in UTF-8. -/
def unitMap : List (Bytes × Nat) :=
  [(ascii "ns", 1), (ascii "us", 1000), ([194, 181, 115], 1000), ([206, 188, 115], 1000),
   (ascii "ms", 1000000), (ascii "s", 1000000000), (ascii "m", 60000000000),
   (ascii "h", 3600000000000)]

/-- A byte that goes on a number in `ParseDuration`: a point or a digit. -/
def isNumByte (c : Nat) : Bool := c = 46 || (decide (48 ≤ c) && decide (c ≤ 57))

/-- The step of `ParseDuration` that reads an optional point and fraction: the
fraction as a number, its scale, the rest of the text, and whether a digit was
read. -/
def parseFraction (s1 : Bytes) : Nat × ℚ × Bytes × Bool :=
  match s1 with
  | 46 :: s2 =>
    let r := leadingFraction s2 0 1 false
    (r.1, r.2.1, r.2.2, decide (s2.length ≠ r.2.2.length))
  | _ => (0, 1, s1, false)

/-- The step of `ParseDuration` that turns a component, `v` before the point and
`f / scale` after it, into nanoseconds of the unit; `none` on overflow. -/
def componentValue (v f : Nat) (scale : ℚ) (unit : Nat) : Option Nat :=
  if 9223372036854775808 / unit < v then none
  else
    let v1 := v * unit % 18446744073709551616
    if 0 < f then
      let v2 := (v1 + floatToUint64 (round64 (round64 (f : ℚ) *
        round64 (round64 (unit : ℚ) / scale)))) % 18446744073709551616
      if 9223372036854775808 < v2 then none else some v2
    else some v1

/-- The loop of `time.ParseDuration` over the components of the text, with the
sum `d` so far; `orig` is the whole text and `quote` the function that quotes
it in the messages.  Every iteration takes at least one byte, and the first
argument bounds the number of iterations. -/
def parseDurationLoop (quote : Bytes → Bytes) (orig : Bytes) : Nat → Bytes → Nat → Except Error Nat
  | 0, _, _ => .error (.msg (ascii "time: invalid duration " ++ quote orig))
  | _ + 1, [], d => .ok d
  | fuel + 1, c :: s0, d =>
    if isNumByte c = false then .error (.msg (ascii "time: invalid duration " ++ quote orig))
    else
      match leadingInt (c :: s0) 0 with
      | none => .error (.msg (ascii "time: invalid duration " ++ quote orig))
      | some (v, s1) =>
        let pre := decide ((c :: s0).length ≠ s1.length)
        let fr := parseFraction s1
        if pre = false ∧ fr.2.2.2 = false then
          .error (.msg (ascii "time: invalid duration " ++ quote orig))
        else
          let u := fr.2.2.1.takeWhile fun b => !isNumByte b
          let s4 := fr.2.2.1.dropWhile fun b => !isNumByte b
          if u = [] then
            .error (.msg (ascii "time: missing unit in duration " ++ quote orig))
          else
            match unitMap.lookup u with
            | none =>
              .error (.msg (ascii "time: unknown unit " ++ quote u ++ ascii " in duration " ++
                quote orig))
            | some unit =>
              match componentValue v fr.1 fr.2.1 unit with
              | none => .error (.msg (ascii "time: invalid duration " ++ quote orig))
              | some v2 =>
                if 9223372036854775808 < (d + v2) % 18446744073709551616 then
                  .error (.msg (ascii "time: invalid duration " ++ quote orig))
                else parseDurationLoop quote orig fuel s4 ((d + v2) % 18446744073709551616)

/-- Function `time.ParseDuration(s)`. -/
def ParseDuration (quote : Bytes → Bytes) (s : Bytes) : Except Error Int :=
  let neg := decide (s.head? = some 45)
  let s1 :=
    match s with
    | c :: rest => if c = 45 ∨ c = 43 then rest else s
    | [] => s
  if s1 = ascii "0" then .ok 0
  else if s1 = [] then .error (.msg (ascii "time: invalid duration " ++ quote s))
  else
    match parseDurationLoop quote s (s1.length + 1) s1 0 with
    | .error err => .error err
    | .ok d =>
      if neg then .ok (wrapInt64 (-(wrapInt64 (d : Int))))
      else if 9223372036854775807 < d then
        .error (.msg (ascii "time: invalid duration " ++ quote s))
      else .ok (wrapInt64 (d : Int))

/-- Method `(d Duration) String()` of package `duration`. -/
def Duration.String (d : Duration) : Bytes := durationFormat d

/-- Method `(d *Duration) UnmarshalText(text)` of package `duration`: the
receiver after the call and the returned error. -/
def Duration.UnmarshalText (quote : Bytes → Bytes) (d : Duration) (text : Bytes) :
    Duration × Option Error :=
  match ParseDuration quote text with
  | .ok dd => (dd, none)
  | .error err => (d, some err)

/-- Method `(d Duration) MarshalText()` of package `duration`: the bytes and the
error, which is always `nil`. -/
def Duration.MarshalText (d : Duration) : Bytes × Option Error := (durationFormat d, none)

/-! ## Decimal formatting and parsing -/

theorem decimalFold_ge (ds : Bytes) (a : Nat) :
    a ≤ ds.foldl (fun a d => 10 * a + (d - 48)) a := by
  induction ds generalizing a with
  | nil => simp
  | cons d ds ih =>
    simp only [List.foldl_cons]
    exact Nat.le_trans (by omega) (ih _)

theorem decimalFold_mono (ds : Bytes) (a b : Nat) (h : a ≤ b) :
    ds.foldl (fun a d => 10 * a + (d - 48)) a ≤ ds.foldl (fun a d => 10 * a + (d - 48)) b := by
  induction ds generalizing a b with
  | nil => simpa
  | cons d ds ih =>
    simp only [List.foldl_cons]
    exact ih _ _ (by omega)

/-- On digits the loop of `ParseUint` returns the number written after the
accumulator, or a range error when that number does not fit in 64 bits. -/
theorem parseUintLoop_digits (s0 ds : Bytes) (n : Nat) (hd : ds.all isDigit = true) :
    parseUintLoop s0 ds n =
      if ds.foldl (fun a d => 10 * a + (d - 48)) n < 18446744073709551616 ∨ ds = [] then
        .ok (ds.foldl (fun a d => 10 * a + (d - 48)) n)
      else .error (.numRange s0) := by
  induction ds generalizing n with
  | nil => simp [parseUintLoop]
  | cons c rest ih =>
    simp only [List.all_cons, Bool.and_eq_true, isDigit, decide_eq_true_eq] at hd
    obtain ⟨⟨h1, h2⟩, hrest⟩ := hd
    have hge := decimalFold_ge rest (10 * n + (c - 48))
    simp only [parseUintLoop, h1, h2, and_self, if_true, List.foldl_cons]
    by_cases hn : 1844674407370955162 ≤ n
    · rw [if_pos hn, if_neg]
      · simp; omega
    · rw [if_neg hn]
      have e1 : n * 10 % 18446744073709551616 = n * 10 := Nat.mod_eq_of_lt (by omega)
      simp only [e1]
      by_cases hov : n * 10 + (c - 48) < 18446744073709551616
      · have e2 : (n * 10 + (c - 48)) % 18446744073709551616 = n * 10 + (c - 48) :=
          Nat.mod_eq_of_lt hov
        simp only [e2]
        rw [if_neg (by omega), ih _ hrest]
        have e3 : n * 10 + (c - 48) = 10 * n + (c - 48) := by omega
        rw [e3]
        by_cases hr : rest = []
        · subst hr
          have hov1 : 10 * n + (c - 48) < 18446744073709551616 := by omega
          simp [hov1]
        · simp [hr]
      · have e2 : (n * 10 + (c - 48)) % 18446744073709551616
            = n * 10 + (c - 48) - 18446744073709551616 := by omega
        simp only [e2]
        rw [if_pos (by omega), if_neg]
        simp
        omega

/-- A byte that is not a digit makes the loop of `ParseUint` fail. -/
theorem parseUintLoop_nondigit (s0 ds : Bytes) (n : Nat) (hd : ds.all isDigit = false) :
    ∃ e, parseUintLoop s0 ds n = .error e := by
  induction ds generalizing n with
  | nil => simp at hd
  | cons c rest ih =>
    by_cases hc : 48 ≤ c ∧ c ≤ 57
    · have hrest : rest.all isDigit = false := by
        simpa [isDigit, hc.1, hc.2] using hd
      simp only [parseUintLoop, hc, and_self, if_true]
      split
      · exact ⟨_, rfl⟩
      · split
        · exact ⟨_, rfl⟩
        · exact ih _ hrest
    · simp only [parseUintLoop, if_neg hc]
      exact ⟨_, rfl⟩

theorem parseUint_digits (ds : Bytes) (hne : ds ≠ []) (hd : ds.all isDigit = true) :
    parseUint ds =
      if decimalValue ds < 18446744073709551616 then .ok (decimalValue ds)
      else .error (.numRange ds) := by
  simp only [parseUint, if_neg hne, parseUintLoop_digits ds ds 0 hd, decimalValue, hne, or_false]
  simp

theorem parseUint_invalid (ds : Bytes) (h : ¬ (ds ≠ [] ∧ ds.all isDigit = true)) :
    ∃ e, parseUint ds = .error e := by
  by_cases hne : ds = []
  · exact ⟨.numSyntax ds, by simp [parseUint, hne]⟩
  · have hd : ds.all isDigit = false := by
      cases hall : ds.all isDigit
      · rfl
      · exact absurd ⟨hne, hall⟩ h
    simp only [parseUint, if_neg hne]
    exact parseUintLoop_nondigit _ _ _ hd

theorem parseInt_cons (c : Nat) (rest : Bytes) :
    parseInt (c :: rest)
      = parseIntBody (c :: rest) (decide (c = 45)) (if c = 43 ∨ c = 45 then rest else c :: rest) :=
  rfl

theorem parseIntBody_invalid (s body : Bytes) (neg : Bool)
    (h : ¬ (body ≠ [] ∧ body.all isDigit = true)) : ∃ e, parseIntBody s neg body = .error e := by
  obtain ⟨e, he⟩ := parseUint_invalid body h
  unfold parseIntBody
  rw [he]
  split
  · exact ⟨_, rfl⟩
  · exact ⟨_, rfl⟩
  · rename_i heq
    cases heq

theorem parseIntBody_digits (s body : Bytes) (neg : Bool) (hne : body ≠ [])
    (hd : body.all isDigit = true) :
    parseIntBody s neg body =
      if (neg = false ∧ decimalValue body < 9223372036854775808) ∨
          (neg = true ∧ decimalValue body ≤ 9223372036854775808) then
        .ok (if neg then -(decimalValue body : Int) else (decimalValue body : Int))
      else .error (.numRange s) := by
  unfold parseIntBody
  rw [parseUint_digits body hne hd]
  by_cases hlt : decimalValue body < 18446744073709551616
  · rw [if_pos hlt]
    cases neg
    · by_cases h63 : decimalValue body < 9223372036854775808
      · simp [h63]
      · simp [h63]
    · by_cases h63 : decimalValue body ≤ 9223372036854775808
      · simp [h63]
      · simp [h63]
  · rw [if_neg hlt]
    have h1 : ¬ decimalValue body < 9223372036854775808 := by omega
    have h2 : ¬ decimalValue body ≤ 9223372036854775808 := by omega
    cases neg
    · simp [h1]
    · simp [h2]

theorem parseInt_minus (rest : Bytes) :
    parseInt (45 :: rest) = parseIntBody (45 :: rest) true rest := rfl

theorem parseInt_plus (rest : Bytes) :
    parseInt (43 :: rest) = parseIntBody (43 :: rest) false rest := rfl

theorem parseInt_unsigned (c : Nat) (rest : Bytes) (h45 : c ≠ 45) (h43 : c ≠ 43) :
    parseInt (c :: rest) = parseIntBody (c :: rest) false (c :: rest) := by
  simp [parseInt_cons, h45, h43]

theorem decimalInt_minus (rest : Bytes) :
    decimalInt (45 :: rest)
      = if rest ≠ [] ∧ rest.all isDigit = true then some (-(decimalValue rest : Int)) else none :=
  rfl

theorem decimalInt_plus (rest : Bytes) :
    decimalInt (43 :: rest)
      = if rest ≠ [] ∧ rest.all isDigit = true then some (decimalValue rest : Int) else none :=
  rfl

theorem decimalInt_unsigned (c : Nat) (rest : Bytes) (h45 : c ≠ 45) (h43 : c ≠ 43) :
    decimalInt (c :: rest)
      = if (c :: rest).all isDigit = true then some (decimalValue (c :: rest) : Int) else none := by
  unfold decimalInt
  split
  · rename_i heq
    simp at heq
    exact absurd heq.1 h45
  · rename_i heq
    simp at heq
    exact absurd heq.1 h43
  · simp

/-- What `parseIntBody` returns against the integer that sign and digits write. -/
theorem parseIntBody_spec (s body : Bytes) (neg : Bool) :
    match (if body ≠ [] ∧ body.all isDigit = true then
        some (if neg then -(decimalValue body : Int) else (decimalValue body : Int))
      else none) with
    | some n =>
      if -9223372036854775808 ≤ n ∧ n ≤ 9223372036854775807 then parseIntBody s neg body = .ok n
      else parseIntBody s neg body = .error (.numRange s)
    | none => ∃ e, parseIntBody s neg body = .error e := by
  by_cases hv : body ≠ [] ∧ body.all isDigit = true
  · rw [if_pos hv]
    simp only []
    rw [parseIntBody_digits _ _ _ hv.1 hv.2]
    cases neg
    · by_cases h63 : decimalValue body < 9223372036854775808
      · have hr : -9223372036854775808 ≤ (decimalValue body : Int) ∧
            (decimalValue body : Int) ≤ 9223372036854775807 := by omega
        simp [h63, hr]
      · have hr : ¬ (-9223372036854775808 ≤ (decimalValue body : Int) ∧
            (decimalValue body : Int) ≤ 9223372036854775807) := by omega
        simp only [Bool.false_eq_true, if_false, hr]
        simp [h63]
    · by_cases h63 : decimalValue body ≤ 9223372036854775808
      · have hr : -9223372036854775808 ≤ -(decimalValue body : Int) ∧
            -(decimalValue body : Int) ≤ 9223372036854775807 := by omega
        simp [h63, hr]
      · have hr : ¬ (-9223372036854775808 ≤ -(decimalValue body : Int) ∧
            -(decimalValue body : Int) ≤ 9223372036854775807) := by omega
        simp only [if_true, hr, if_false]
        simp [h63]
  · rw [if_neg hv]
    exact parseIntBody_invalid _ _ _ hv

/-- The function `parseInt` against the notion `decimalInt`: it returns the
integer written by the text when that integer fits in 64 bits, a range error
when it does not, and an error when the text writes no integer. -/
theorem parseInt_spec (s : Bytes) :
    match decimalInt s with
    | some n =>
      if -9223372036854775808 ≤ n ∧ n ≤ 9223372036854775807 then parseInt s = .ok n
      else parseInt s = .error (.numRange s)
    | none => ∃ e, parseInt s = .error e := by
  rcases s with _ | ⟨c, rest⟩
  · simp [decimalInt, parseInt]
  · by_cases h45 : c = 45
    · subst h45
      rw [parseInt_minus, decimalInt_minus]
      exact parseIntBody_spec _ rest true
    · by_cases h43 : c = 43
      · subst h43
        rw [parseInt_plus, decimalInt_plus]
        exact parseIntBody_spec _ rest false
      · rw [parseInt_unsigned c rest h45 h43, decimalInt_unsigned c rest h45 h43]
        have := parseIntBody_spec (c :: rest) (c :: rest) false
        simpa using this

theorem parseInt_ok_iff (s : Bytes) (n : Int) :
    parseInt s = .ok n ↔
      decimalInt s = some n ∧ -9223372036854775808 ≤ n ∧ n ≤ 9223372036854775807 := by
  have h := parseInt_spec s
  cases hd : decimalInt s with
  | none =>
    rw [hd] at h
    obtain ⟨e, he⟩ := h
    simp [he]
  | some m =>
    rw [hd] at h
    simp only [] at h
    by_cases hr : -9223372036854775808 ≤ m ∧ m ≤ 9223372036854775807
    · rw [if_pos hr] at h
      rw [h]
      constructor
      · intro hm
        cases hm
        exact ⟨rfl, hr⟩
      · rintro ⟨hm, -⟩
        cases hm
        rfl
    · rw [if_neg hr] at h
      rw [h]
      constructor
      · intro hm
        cases hm
      · rintro ⟨hm, h1, h2⟩
        cases hm
        exact absurd ⟨h1, h2⟩ hr

theorem parseInt_error_iff (s : Bytes) :
    (∃ e, parseInt s = .error e) ↔ ¬ validInt64Text s := by
  constructor
  · rintro ⟨e, he⟩ ⟨n, hn, h1, h2⟩
    have := (parseInt_ok_iff s n).2 ⟨hn, h1, h2⟩
    rw [he] at this
    cases this
  · intro hnv
    cases hp : parseInt s with
    | error e => exact ⟨e, rfl⟩
    | ok n =>
      have := (parseInt_ok_iff s n).1 hp
      exact absurd ⟨n, this⟩ hnv

theorem fmtDigits_append (fuel u : Nat) (buf : Bytes) :
    fmtDigits fuel u buf = fmtDigits fuel u [] ++ buf := by
  induction fuel generalizing u buf with
  | zero => simp [fmtDigits]
  | succ fuel ih =>
    simp only [fmtDigits]
    split
    · rw [ih (u / 10) (_ :: buf), ih (u / 10) [_]]
      simp
    · simp

theorem decimalValue_snoc (ds : Bytes) (d : Nat) :
    decimalValue (ds ++ [d]) = 10 * decimalValue ds + (d - 48) := by
  simp [decimalValue, List.foldl_append]

/-- With enough iterations the digit loop writes a numeral for `u`: one or more
digits whose value is `u`. -/
theorem fmtDigits_spec (fuel u : Nat) (h : u ≤ fuel) :
    fmtDigits fuel u [] ≠ [] ∧ (fmtDigits fuel u []).all isDigit = true ∧
      decimalValue (fmtDigits fuel u []) = u := by
  induction fuel generalizing u with
  | zero =>
    have hu : u = 0 := by omega
    subst hu
    simp [fmtDigits, isDigit, decimalValue]
  | succ fuel ih =>
    simp only [fmtDigits]
    by_cases h10 : 10 ≤ u
    · rw [if_pos h10, fmtDigits_append]
      obtain ⟨-, h2, h3⟩ := ih (u / 10) (by omega)
      refine ⟨by simp, ?_, ?_⟩
      · rw [List.all_append, h2]
        simp [isDigit]
        omega
      · rw [decimalValue_snoc, h3]
        omega
    · rw [if_neg h10]
      refine ⟨by simp, ?_, ?_⟩
      · simp [isDigit]
        omega
      · simp [decimalValue]

theorem digitChar_toNat (d : Nat) (h : d < 10) : (Nat.digitChar d).toNat = 48 + d := by
  interval_cases d <;> rfl

theorem toDigitsCore_eq_fmtDigits (fuel1 fuel2 n : Nat) (ds : List Char)
    (h1 : n < fuel1) (h2 : n ≤ fuel2) :
    (Nat.toDigitsCore 10 fuel1 n ds).map Char.toNat = fmtDigits fuel2 n (ds.map Char.toNat) := by
  induction fuel1 generalizing fuel2 n ds with
  | zero => omega
  | succ fuel1 ih =>
    simp only [Nat.toDigitsCore]
    cases fuel2 with
    | zero =>
      have hn : n = 0 := by omega
      subst hn
      simp [fmtDigits]
      rfl
    | succ fuel2 =>
      simp only [fmtDigits]
      by_cases h10 : 10 ≤ n
      · rw [if_pos h10, if_neg (by omega)]
        rw [ih fuel2 (n / 10) _ (by omega) (by omega)]
        simp only [List.map_cons]
        rw [digitChar_toNat _ (Nat.mod_lt _ (by omega))]
        congr 2
        omega
      · rw [if_neg h10, if_pos (by omega)]
        simp only [List.map_cons]
        rw [digitChar_toNat _ (Nat.mod_lt _ (by omega))]
        congr 2
        omega

/-- The digits that `fmt` writes for a natural number are those of its usual
decimal representation. -/
theorem fmtDigits_eq_repr (n : Nat) : fmtDigits n n [] = ascii (toString n) := by
  have h := toDigitsCore_eq_fmtDigits (n + 1) n n [] (by omega) (Nat.le_refl n)
  simp only [List.map_nil] at h
  rw [← h]
  rfl

theorem sprintInt_natCast (n : Nat) : sprintInt (n : Int) = ascii (toString n) := by
  unfold sprintInt
  rw [if_neg (by omega)]
  simp only [Int.natAbs_ofNat]
  exact fmtDigits_eq_repr n

/-- The text that `%d` prints writes the integer printed. -/
theorem decimalInt_sprintInt (v : Int) : decimalInt (sprintInt v) = some v := by
  obtain ⟨h1, h2, h3⟩ := fmtDigits_spec v.natAbs v.natAbs (Nat.le_refl _)
  unfold sprintInt
  by_cases hv : v < 0
  · rw [if_pos hv, decimalInt_minus, if_pos ⟨h1, h2⟩, h3]
    congr 1
    omega
  · rw [if_neg hv]
    rcases hds : fmtDigits v.natAbs v.natAbs [] with _ | ⟨c, rest⟩
    · exact absurd hds h1
    · rw [hds] at h2 h3
      have hc : 48 ≤ c ∧ c ≤ 57 := by
        simp only [List.all_cons, Bool.and_eq_true, isDigit, decide_eq_true_eq] at h2
        exact h2.1
      rw [decimalInt_unsigned c rest (by omega) (by omega), if_pos h2, h3]
      congr 1
      omega

theorem parseInt_sprintInt (v : Int) (h1 : -9223372036854775808 ≤ v)
    (h2 : v ≤ 9223372036854775807) : parseInt (sprintInt v) = .ok v :=
  (parseInt_ok_iff _ _).2 ⟨decimalInt_sprintInt v, h1, h2⟩

theorem sprintInt_ne_nil (v : Int) : sprintInt v ≠ [] := by
  intro h
  have := decimalInt_sprintInt v
  rw [h] at this
  simp [decimalInt] at this

/-! ## LogSize -/

theorem toLower_single (unicodeLower : Bytes → Bytes) (b : Nat) (hb : b < 128) :
    toLower unicodeLower [b] = [if 65 ≤ b ∧ b ≤ 90 then b + 32 else b] := by
  simp [toLower, hb]

/-- The method `LogSize.UnmarshalText` on a text split into its last byte and
what comes before it. -/
theorem LogSize_unmarshal_snoc (unicodeLower : Bytes → Bytes) (l : LogSize) (pre : Bytes)
    (b : Nat) (hne : pre ≠ []) :
    LogSize.UnmarshalText unicodeLower l (pre ++ [b]) =
      match parseInt pre with
      | .error e => (l, some e)
      | .ok n =>
        if toLower unicodeLower [b] = ascii "k" then (wrapInt64 (n * 1024), none)
        else if toLower unicodeLower [b] = ascii "m" then (wrapInt64 (n * (1024 * 1024)), none)
        else if toLower unicodeLower [b] = ascii "g" then
          (wrapInt64 (n * (1024 * 1024 * 1024)), none)
        else (n, none) := by
  have hlen : 0 < pre.length := List.length_pos.2 hne
  unfold LogSize.UnmarshalText
  rw [if_neg (by simp; omega)]
  simp only [List.length_append, List.length_singleton, Nat.add_sub_cancel,
    List.take_left, List.drop_left]

theorem wrapInt64_of_fits (z : Int) (h : fitsInt64 z) : wrapInt64 z = z := by
  unfold fitsInt64 at h
  unfold wrapInt64
  omega

theorem ascii_k : ascii "k" = [107] := rfl
theorem ascii_m : ascii "m" = [109] := rfl
theorem ascii_g : ascii "g" = [103] := rfl

/-- The value stored by `LogSize.UnmarshalText` for a last byte `b` below 128
and a text before it that parses as `n`. -/
theorem LogSize_unmarshal_ascii (unicodeLower : Bytes → Bytes) (l : LogSize) (pre : Bytes)
    (b : Nat) (n : Int) (hb : b < 128) (hn : parseInt pre = .ok n) :
    LogSize.UnmarshalText unicodeLower l (pre ++ [b]) =
      if b = 107 ∨ b = 75 then (wrapInt64 (n * 1024), none)
      else if b = 109 ∨ b = 77 then (wrapInt64 (n * (1024 * 1024)), none)
      else if b = 103 ∨ b = 71 then (wrapInt64 (n * (1024 * 1024 * 1024)), none)
      else (n, none) := by
  have hne : pre ≠ [] := by
    intro h
    rw [h] at hn
    simp [parseInt] at hn
  rw [LogSize_unmarshal_snoc _ _ _ _ hne, hn, toLower_single _ _ hb, ascii_k, ascii_m, ascii_g]
  simp only [List.cons.injEq, and_true]
  by_cases hup : 65 ≤ b ∧ b ≤ 90
  · simp only [if_pos hup]
    have e1 : (b + 32 = 107) = (b = 107 ∨ b = 75) := by
      apply propext
      omega
    have e2 : (b + 32 = 109) = (b = 109 ∨ b = 77) := by
      apply propext
      omega
    have e3 : (b + 32 = 103) = (b = 103 ∨ b = 71) := by
      apply propext
      omega
    simp only [e1, e2, e3]
  · simp only [if_neg hup]
    have h75 : b ≠ 75 := by omega
    have h77 : b ≠ 77 := by omega
    have h71 : b ≠ 71 := by omega
    simp only [h75, h77, h71, or_false]

theorem ascii_B : ascii "B" = [66] := rfl
theorem ascii_K : ascii "K" = [75] := rfl
theorem ascii_M : ascii "M" = [77] := rfl
theorem ascii_G : ascii "G" = [71] := rfl

/-- Decoding the text `%d` of `q` followed by a byte below 128. -/
theorem LogSize_unmarshal_sprint (unicodeLower : Bytes → Bytes) (l : LogSize) (q : Int)
    (b : Nat) (hb : b < 128) (hq : fitsInt64 q) :
    LogSize.UnmarshalText unicodeLower l (sprintInt q ++ [b]) =
      if b = 107 ∨ b = 75 then (wrapInt64 (q * 1024), none)
      else if b = 109 ∨ b = 77 then (wrapInt64 (q * (1024 * 1024)), none)
      else if b = 103 ∨ b = 71 then (wrapInt64 (q * (1024 * 1024 * 1024)), none)
      else (q, none) :=
  LogSize_unmarshal_ascii unicodeLower l (sprintInt q) b q hb (parseInt_sprintInt q hq.1 hq.2)

/-- C5: `LogSize.UnmarshalText` returns an error exactly when the text has fewer
than 2 bytes or the text without its last byte is not a valid base-10 signed
64-bit integer, and whenever it returns an error the receiver keeps its value. -/
theorem LogSize_unmarshal_error_iff (unicodeLower : Bytes → Bytes) (l : LogSize)
    (text : Bytes) :
    ((LogSize.UnmarshalText unicodeLower l text).2 ≠ none ↔
        (text.length < 2 ∨ ¬ validInt64Text text.dropLast)) ∧
    ((LogSize.UnmarshalText unicodeLower l text).2 ≠ none →
        (LogSize.UnmarshalText unicodeLower l text).1 = l) := by
  by_cases hlen : text.length < 2
  · simp [LogSize.UnmarshalText, hlen]
  · unfold LogSize.UnmarshalText
    rw [if_neg hlen, List.dropLast_eq_take]
    simp only [hlen, false_or]
    cases hp : parseInt (text.take (text.length - 1)) with
    | error e =>
      have hnv := (parseInt_error_iff _).1 ⟨e, hp⟩
      simp [hnv]
    | ok n =>
      have hv : validInt64Text (text.take (text.length - 1)) := ⟨n, (parseInt_ok_iff _ _).1 hp⟩
      simp only [hv, not_true_eq_false, iff_false, not_not]
      split_ifs <;> simp

/-- C9: for a text of at least 2 bytes whose bytes before the last byte `b`
write the integer `n`, `LogSize.UnmarshalText` stores `n * 1024` for `k`/`K`,
`n * 1024^2` for `m`/`M`, `n * 1024^3` for `g`/`G`, each when the product fits
in 64 bits, and `n` itself for any other last byte below 128, which covers
every other letter. -/
theorem LogSize_unmarshal_scaled (unicodeLower : Bytes → Bytes) (l : LogSize) (text : Bytes)
    (b : Nat) (n : Int) (_hlen : 2 ≤ text.length) (hb : text.getLast? = some b)
    (hn : decimalInt text.dropLast = some n) :
    ((b = 107 ∨ b = 75) → fitsInt64 (n * 1024) →
      LogSize.UnmarshalText unicodeLower l text = (n * 1024, none)) ∧
    ((b = 109 ∨ b = 77) → fitsInt64 (n * (1024 * 1024)) →
      LogSize.UnmarshalText unicodeLower l text = (n * (1024 * 1024), none)) ∧
    ((b = 103 ∨ b = 71) → fitsInt64 (n * (1024 * 1024 * 1024)) →
      LogSize.UnmarshalText unicodeLower l text = (n * (1024 * 1024 * 1024), none)) ∧
    (b < 128 → b ∉ [107, 75, 109, 77, 103, 71] → fitsInt64 n →
      LogSize.UnmarshalText unicodeLower l text = (n, none)) := by
  have htext : text.dropLast ++ [b] = text := List.dropLast_append_getLast? b (by simp [hb])
  have key : b < 128 → fitsInt64 n →
      LogSize.UnmarshalText unicodeLower l text =
        if b = 107 ∨ b = 75 then (wrapInt64 (n * 1024), none)
        else if b = 109 ∨ b = 77 then (wrapInt64 (n * (1024 * 1024)), none)
        else if b = 103 ∨ b = 71 then (wrapInt64 (n * (1024 * 1024 * 1024)), none)
        else (n, none) := by
    intro hb128 hfit
    have hp : parseInt text.dropLast = .ok n := (parseInt_ok_iff _ _).2 ⟨hn, hfit.1, hfit.2⟩
    have := LogSize_unmarshal_ascii unicodeLower l text.dropLast b n hb128 hp
    rwa [htext] at this
  refine ⟨?_, ?_, ?_, ?_⟩
  · intro hk hfit
    have hfn : fitsInt64 n := by
      unfold fitsInt64 at hfit ⊢
      omega
    rw [key (by omega) hfn, if_pos hk, wrapInt64_of_fits _ hfit]
  · intro hm hfit
    have hfn : fitsInt64 n := by
      unfold fitsInt64 at hfit ⊢
      omega
    rw [key (by omega) hfn, if_neg (by omega), if_pos hm, wrapInt64_of_fits _ hfit]
  · intro hg hfit
    have hfn : fitsInt64 n := by
      unfold fitsInt64 at hfit ⊢
      omega
    rw [key (by omega) hfn, if_neg (by omega), if_neg (by omega), if_pos hg,
      wrapInt64_of_fits _ hfit]
  · intro hb128 hnot hfit
    simp only [List.mem_cons, List.mem_singleton, List.not_mem_nil, or_false, not_or] at hnot
    rw [key hb128 hfit, if_neg (by omega), if_neg (by omega), if_neg (by omega)]

theorem LogSize_String_B (v : Int) (h : v < 1024) : LogSize.String v = sprintInt v ++ [66] := by
  unfold LogSize.String
  rw [if_pos h, ascii_B]

theorem LogSize_String_K (v : Int) (h1 : 1024 ≤ v) (h2 : v < 1024 * 1024) :
    LogSize.String v = sprintInt (v / 1024) ++ [75] := by
  unfold LogSize.String
  rw [if_neg (show ¬ v < 1024 by omega), if_pos h2, ascii_K]

theorem LogSize_String_M (v : Int) (h1 : 1024 * 1024 ≤ v) (h2 : v < 1024 * 1024 * 1024) :
    LogSize.String v = sprintInt (v / 1024 / 1024) ++ [77] := by
  unfold LogSize.String
  rw [if_neg (show ¬ v < 1024 by omega), if_neg (show ¬ v < 1024 * 1024 by omega), if_pos h2,
    ascii_M]

theorem LogSize_String_G (v : Int) (h1 : 1024 * 1024 * 1024 ≤ v)
    (h2 : v < 1024 * 1024 * 1024 * 1024) :
    LogSize.String v = sprintInt (v / 1024 / 1024 / 1024) ++ [71] := by
  unfold LogSize.String
  rw [if_neg (show ¬ v < 1024 by omega), if_neg (show ¬ v < 1024 * 1024 by omega),
    if_neg (show ¬ v < 1024 * 1024 * 1024 by omega), if_pos h2, ascii_G]

theorem LogSize_String_unknown (v : Int) (h : 1024 * 1024 * 1024 * 1024 ≤ v) :
    LogSize.String v = ascii "unknown" := by
  unfold LogSize.String
  rw [if_neg (show ¬ v < 1024 by omega), if_neg (show ¬ v < 1024 * 1024 by omega),
    if_neg (show ¬ v < 1024 * 1024 * 1024 by omega),
    if_neg (show ¬ v < 1024 * 1024 * 1024 * 1024 by omega)]

/-- C4: for each unit `B`, `K`, `M`, `G` of size 1, 1024, 1024^2, 1024^3 and
each `n` from 1 to 1023 (and `n = 0` with `B`), the text of `n * size` is the
decimal digits of `n` followed by the unit, and decoding that text gives
`n * size` again. -/
theorem LogSize_unit_boundary (unicodeLower : Bytes → Bytes) (l : LogSize) (u : Nat × Int)
    (n : Nat) (hu : u ∈ sizeUnits) (hn : (1 ≤ n ∧ n ≤ 1023) ∨ (n = 0 ∧ u = (66, 1))) :
    LogSize.String ((n : Int) * u.2) = ascii (toString n) ++ [u.1] ∧
      LogSize.UnmarshalText unicodeLower l (ascii (toString n) ++ [u.1])
        = ((n : Int) * u.2, none) := by
  have hfit : fitsInt64 (n : Int) := by
    unfold fitsInt64
    omega
  simp only [sizeUnits, List.mem_cons, List.mem_singleton, List.not_mem_nil, or_false] at hu
  rw [← sprintInt_natCast]
  rcases hu with rfl | rfl | rfl | rfl <;> dsimp only
  · refine ⟨?_, ?_⟩
    · rw [LogSize_String_B _ (by omega)]
      simp
    · rw [LogSize_unmarshal_sprint _ _ _ _ (by omega) hfit]
      simp
  · have hn1 : 1 ≤ n ∧ n ≤ 1023 := by
      rcases hn with h | h
      · exact h
      · simp at h
    refine ⟨?_, ?_⟩
    · rw [LogSize_String_K _ (by omega) (by omega)]
      have e : (n : Int) * 1024 / 1024 = n := by omega
      rw [e]
    · rw [LogSize_unmarshal_sprint _ _ _ _ (by omega) hfit]
      rw [if_pos (Or.inr rfl), wrapInt64_of_fits]
      unfold fitsInt64
      omega
  · have hn1 : 1 ≤ n ∧ n ≤ 1023 := by
      rcases hn with h | h
      · exact h
      · simp at h
    refine ⟨?_, ?_⟩
    · rw [LogSize_String_M _ (by omega) (by omega)]
      have e : (n : Int) * (1024 * 1024) / 1024 / 1024 = n := by omega
      rw [e]
    · rw [LogSize_unmarshal_sprint _ _ _ _ (by omega) hfit]
      rw [if_neg (show ¬ ((77 : Nat) = 107 ∨ (77 : Nat) = 75) by omega), if_pos (Or.inr rfl),
        wrapInt64_of_fits]
      unfold fitsInt64
      omega
  · have hn1 : 1 ≤ n ∧ n ≤ 1023 := by
      rcases hn with h | h
      · exact h
      · simp at h
    refine ⟨?_, ?_⟩
    · rw [LogSize_String_G _ (by omega) (by omega)]
      have e : (n : Int) * (1024 * 1024 * 1024) / 1024 / 1024 / 1024 = n := by omega
      rw [e]
    · rw [LogSize_unmarshal_sprint _ _ _ _ (by omega) hfit]
      rw [if_neg (show ¬ ((71 : Nat) = 107 ∨ (71 : Nat) = 75) by omega),
        if_neg (show ¬ ((71 : Nat) = 109 ∨ (71 : Nat) = 77) by omega), if_pos (Or.inr rfl),
        wrapInt64_of_fits]
      unfold fitsInt64
      omega

theorem sprintInt_toNat (q : Int) (h : 0 ≤ q) : sprintInt q = ascii (toString q.toNat) := by
  rw [← sprintInt_natCast, Int.toNat_of_nonneg h]

/-- C10, amended: for a byte count `v` with `0 ≤ v < 1024^4`, the text of `v`
is the decimal digits of `v / size` followed by the suffix of the largest unit
whose size does not exceed `v` (`B` when `v = 0`). -/
theorem LogSize_String_largest_unit (v : Int) (u : Nat × Int) (h0 : 0 ≤ v)
    (hmax : v < 1024 * 1024 * 1024 * 1024) (hu : largestUnit u v) :
    LogSize.String v = ascii (toString (v / u.2).toNat) ++ [u.1] := by
  obtain ⟨hmem, hbig⟩ := hu
  have hK := fun h => (hbig.resolve_right h).2 (75, 1024) (by simp [sizeUnits])
  have hM := fun h => (hbig.resolve_right h).2 (77, 1024 * 1024) (by simp [sizeUnits])
  have hG := fun h => (hbig.resolve_right h).2 (71, 1024 * 1024 * 1024) (by simp [sizeUnits])
  have hle : ¬ (v = 0 ∧ u = (66, 1)) → u.2 ≤ v := fun h => (hbig.resolve_right h).1
  simp only [sizeUnits, List.mem_cons, List.mem_singleton, List.not_mem_nil, or_false] at hmem
  rcases hmem with rfl | rfl | rfl | rfl <;> dsimp only at hK hM hG hle ⊢
  · have hlt : v < 1024 := by
      by_cases hz : v = 0
      · omega
      · have := hK (fun h => hz h.1)
        omega
    rw [LogSize_String_B v hlt, sprintInt_toNat v h0]
    simp
  · have hne : ¬ (v = 0 ∧ ((75, 1024) : Nat × Int) = (66, 1)) := by simp
    have h1 := hle hne
    have h2 := hM hne
    rw [LogSize_String_K v h1 (by omega), sprintInt_toNat _ (by omega)]
  · have hne : ¬ (v = 0 ∧ ((77, 1024 * 1024) : Nat × Int) = (66, 1)) := by simp
    have h1 := hle hne
    have h2 := hG hne
    rw [LogSize_String_M v h1 (by omega), sprintInt_toNat _ (by omega)]
    have e : v / 1024 / 1024 = v / (1024 * 1024) := by omega
    rw [e]
  · have hne : ¬ (v = 0 ∧ ((71, 1024 * 1024 * 1024) : Nat × Int) = (66, 1)) := by simp
    have h1 := hle hne
    rw [LogSize_String_G v h1 hmax, sprintInt_toNat _ (by omega)]
    have e : v / 1024 / 1024 / 1024 = v / (1024 * 1024 * 1024) := by omega
    rw [e]

theorem unmarshal_unknown (unicodeLower : Bytes → Bytes) (l : LogSize) :
    (LogSize.UnmarshalText unicodeLower l (ascii "unknown")).2 ≠ none := by
  have e : ascii "unknown" = [117, 110, 107, 110, 111, 119] ++ [110] := rfl
  rw [e, LogSize_unmarshal_snoc _ _ _ _ (by simp)]
  have hp : parseInt [117, 110, 107, 110, 111, 119]
      = .error (.numSyntax [117, 110, 107, 110, 111, 119]) := rfl
  rw [hp]
  simp

/-- C3, amended: for an `int64` value `v`, decoding the text of `v` returns `v`
without error exactly when `v` is below 1024, or below 1024^4 and a multiple of
the unit that its text uses. -/
theorem LogSize_roundtrip_iff (unicodeLower : Bytes → Bytes) (l : LogSize) (v : Int)
    (hv : fitsInt64 v) :
    LogSize.UnmarshalText unicodeLower l (LogSize.String v) = (v, none) ↔
      v < 1024 ∨ (v < 1024 * 1024 ∧ v % 1024 = 0) ∨
        (v < 1024 * 1024 * 1024 ∧ v % (1024 * 1024) = 0) ∨
        (v < 1024 * 1024 * 1024 * 1024 ∧ v % (1024 * 1024 * 1024) = 0) := by
  have hv1 := hv.1
  have hv2 := hv.2
  by_cases hB : v < 1024
  · rw [LogSize_String_B v hB, LogSize_unmarshal_sprint _ _ _ _ (by omega) hv]
    simp [hB]
  by_cases hK : v < 1024 * 1024
  · have hq : fitsInt64 (v / 1024) := ⟨by omega, by omega⟩
    have hw : fitsInt64 (v / 1024 * 1024) := ⟨by omega, by omega⟩
    rw [LogSize_String_K v (by omega) hK, LogSize_unmarshal_sprint _ _ _ _ (by omega) hq,
      if_pos (Or.inr rfl), wrapInt64_of_fits _ hw]
    simp only [Prod.mk.injEq, and_true]
    omega
  by_cases hM : v < 1024 * 1024 * 1024
  · have hq : fitsInt64 (v / 1024 / 1024) := ⟨by omega, by omega⟩
    have hw : fitsInt64 (v / 1024 / 1024 * (1024 * 1024)) := ⟨by omega, by omega⟩
    rw [LogSize_String_M v (by omega) hM, LogSize_unmarshal_sprint _ _ _ _ (by omega) hq,
      if_neg (show ¬ ((77 : Nat) = 107 ∨ (77 : Nat) = 75) by omega), if_pos (Or.inr rfl),
      wrapInt64_of_fits _ hw]
    simp only [Prod.mk.injEq, and_true]
    omega
  by_cases hG : v < 1024 * 1024 * 1024 * 1024
  · have hq : fitsInt64 (v / 1024 / 1024 / 1024) := ⟨by omega, by omega⟩
    have hw : fitsInt64 (v / 1024 / 1024 / 1024 * (1024 * 1024 * 1024)) :=
      ⟨by omega, by omega⟩
    rw [LogSize_String_G v (by omega) hG, LogSize_unmarshal_sprint _ _ _ _ (by omega) hq,
      if_neg (show ¬ ((71 : Nat) = 107 ∨ (71 : Nat) = 75) by omega),
      if_neg (show ¬ ((71 : Nat) = 109 ∨ (71 : Nat) = 77) by omega), if_pos (Or.inr rfl),
      wrapInt64_of_fits _ hw]
    simp only [Prod.mk.injEq, and_true]
    omega
  · rw [LogSize_String_unknown v (by omega)]
    have hne := unmarshal_unknown unicodeLower l
    constructor
    · intro h
      rw [h] at hne
      exact absurd rfl hne
    · intro h
      omega

/-! ## LogLevel -/

/-- A case variant of an all-lowercase name is lower-cased to that name. -/
theorem toLower_caseVariant (unicodeLower : Bytes → Bytes) (t name : Bytes)
    (hcase : caseVariant t name) (hlow : ∀ d ∈ name, 97 ≤ d ∧ d ≤ 122) :
    toLower unicodeLower t = name := by
  have key : t.all (fun c => decide (c < 128)) = true ∧
      t.map (fun c => if 65 ≤ c ∧ c ≤ 90 then c + 32 else c) = name := by
    unfold caseVariant at hcase
    induction hcase with
    | nil => simp
    | @cons c d t1 n1 hcd _ ih =>
      have hd := hlow d (by simp)
      obtain ⟨ih1, ih2⟩ := ih (fun x hx => hlow x (by simp [hx]))
      refine ⟨?_, ?_⟩
      · simp only [List.all_cons, ih1, Bool.and_true, decide_eq_true_eq]
        omega
      · simp only [List.map_cons, ih2, List.cons.injEq, and_true]
        rcases hcd with h | h
        · rw [if_neg (by omega)]
          exact h
        · rw [if_pos (by omega)]
          exact h
  unfold toLower
  rw [if_pos key.1, key.2]

theorem LogLevel_unmarshal_of_lower (unicodeLower : Bytes → Bytes) (l : LogLevel)
    (text name : Bytes) (h : toLower unicodeLower text = name) :
    LogLevel.UnmarshalText unicodeLower l text =
      match logLevelMap.lookup name with
      | none => (l, some (.msg (ascii "not support log level " ++ text)))
      | some level => (level, none) := by
  unfold LogLevel.UnmarshalText
  rw [h]

/-- C2: each of the six level names, written in any mix of upper and lower case,
is decoded without error and the decoded level is printed as the lowercase name. -/
theorem LogLevel_decode_encode_canonical (unicodeLower : Bytes → Bytes) (l : LogLevel)
    (text name : Bytes) (hname : name ∈ levelNames) (hcase : caseVariant text name) :
    (LogLevel.UnmarshalText unicodeLower l text).2 = none ∧
      LogLevel.String (LogLevel.UnmarshalText unicodeLower l text).1 = name := by
  simp only [levelNames, List.mem_cons, List.mem_singleton, List.not_mem_nil, or_false] at hname
  rcases hname with rfl | rfl | rfl | rfl | rfl | rfl
  all_goals
    rw [LogLevel_unmarshal_of_lower unicodeLower l text _
      (toLower_caseVariant unicodeLower text _ hcase (by decide))]
    exact ⟨rfl, rfl⟩

theorem logLevelMap_lookup_none (key : Bytes) (h : key ∉ levelNames) :
    logLevelMap.lookup key = none := by
  simp only [levelNames, List.mem_cons, List.mem_singleton, List.not_mem_nil, or_false,
    not_or] at h
  obtain ⟨h1, h2, h3, h4, h5, h6⟩ := h
  have b1 : (key == ascii "trace") = false := beq_eq_false_iff_ne.2 h1
  have b2 : (key == ascii "debug") = false := beq_eq_false_iff_ne.2 h2
  have b3 : (key == ascii "info") = false := beq_eq_false_iff_ne.2 h3
  have b4 : (key == ascii "warn") = false := beq_eq_false_iff_ne.2 h4
  have b5 : (key == ascii "error") = false := beq_eq_false_iff_ne.2 h5
  have b6 : (key == ascii "fatal") = false := beq_eq_false_iff_ne.2 h6
  simp only [logLevelMap, List.lookup, b1, b2, b3, b4, b5, b6]

theorem logLevelMap_lookup_some (key : Bytes) (h : key ∈ levelNames) :
    ∃ level, logLevelMap.lookup key = some level := by
  simp only [levelNames, List.mem_cons, List.mem_singleton, List.not_mem_nil, or_false] at h
  rcases h with rfl | rfl | rfl | rfl | rfl | rfl
  all_goals exact ⟨_, rfl⟩

/-- C6: a text whose lower-cased form is not one of the six level names makes
`LogLevel.UnmarshalText` fail with the message `not support log level ` followed
by the text as given, the receiver keeping its level; any other text is decoded
without error. -/
theorem LogLevel_unmarshal_unsupported (unicodeLower : Bytes → Bytes) (l : LogLevel)
    (text : Bytes) :
    (toLower unicodeLower text ∉ levelNames →
      LogLevel.UnmarshalText unicodeLower l text
        = (l, some (.msg (ascii "not support log level " ++ text)))) ∧
    (toLower unicodeLower text ∈ levelNames →
      (LogLevel.UnmarshalText unicodeLower l text).2 = none) := by
  refine ⟨?_, ?_⟩
  · intro h
    rw [LogLevel_unmarshal_of_lower unicodeLower l text _ rfl, logLevelMap_lookup_none _ h]
  · intro h
    obtain ⟨level, hl⟩ := logLevelMap_lookup_some _ h
    rw [LogLevel_unmarshal_of_lower unicodeLower l text _ rfl, hl]

/-! ## The pipeline -/

theorem getField_none (k : Bytes) (c : Target) (h : getField k c = none) :
    ∀ f ∈ c, f.key ≠ k := by
  intro f hf
  have := List.find?_eq_none.1 h f hf
  simpa using this

theorem getField_some (k : Bytes) (c : Target) (g : Field) (h : getField k c = some g) :
    g ∈ c ∧ g.key = k := by
  refine ⟨List.mem_of_find?_eq_some h, ?_⟩
  have := List.find?_some h
  simpa using this

theorem setField_keys (k : Bytes) (v : Value) (c : Target) :
    (setField k v c).map Field.key = c.map Field.key := by
  induction c with
  | nil => rfl
  | cons f fs ih =>
    simp only [setField]
    split
    · simp
    · simp [ih]

theorem mem_setField_of_ne (k : Bytes) (v : Value) (c : Target) (f : Field) (hf : f ∈ c)
    (hk : f.key ≠ k) : f ∈ setField k v c := by
  induction c with
  | nil => cases hf
  | cons g gs ih =>
    simp only [setField]
    rcases List.mem_cons.1 hf with rfl | hmem
    · rw [if_neg hk]
      exact List.mem_cons_self _ _
    · split
      · exact List.mem_cons_of_mem _ hmem
      · exact List.mem_cons_of_mem _ (ih hmem)

theorem mem_setField_of_eq (k : Bytes) (v : Value) (c : Target) (f : Field) (hf : f ∈ c)
    (hk : f.key = k) (hnd : (c.map Field.key).Nodup) :
    { f with value := v } ∈ setField k v c := by
  induction c with
  | nil => cases hf
  | cons g gs ih =>
    simp only [List.map_cons, List.nodup_cons] at hnd
    simp only [setField]
    by_cases hg : g.key = k
    · rw [if_pos hg]
      rcases List.mem_cons.1 hf with rfl | hmem
      · exact List.mem_cons_self _ _
      · exact absurd (List.mem_map.2 ⟨f, hmem, hk.trans hg.symm⟩) hnd.1
    · rw [if_neg hg]
      rcases List.mem_cons.1 hf with rfl | hmem
      · exact absurd hk hg
      · exact List.mem_cons_of_mem _ (ih hmem hnd.2)

theorem lookup_none_of_not_mem (k : Bytes) (es : List (Bytes × TomlValue))
    (h : k ∉ es.map Prod.fst) : es.lookup k = none := by
  induction es with
  | nil => rfl
  | cons e es ih =>
    obtain ⟨k1, tv⟩ := e
    simp only [List.map_cons, List.mem_cons, not_or] at h
    have hb : (k == k1) = false := beq_eq_false_iff_ne.2 h.1
    simp only [List.lookup, hb]
    exact ih h.2

theorem lookup_cons_ne (k k1 : Bytes) (tv : TomlValue) (es : List (Bytes × TomlValue))
    (h : k ≠ k1) : List.lookup k ((k1, tv) :: es) = es.lookup k := by
  have hb : (k == k1) = false := beq_eq_false_iff_ne.2 h
  simp only [List.lookup, hb]

theorem lookup_cons_self (k : Bytes) (tv : TomlValue) (es : List (Bytes × TomlValue)) :
    List.lookup k ((k, tv) :: es) = some tv := by
  simp [List.lookup]

/-- What a decoding without error leaves in the target: the keys and defaults
are those of before, a field whose key is in the document holds the value
stored from it, and every other field holds the value it had. -/
theorem unifyEntries_ok (unicodeLower : Bytes → Bytes) (es : List (Bytes × TomlValue))
    (c c1 : Target) (hes : (es.map Prod.fst).Nodup) (hc : (c.map Field.key).Nodup)
    (h : unifyEntries unicodeLower es c = (c1, none)) :
    c1.map Field.key = c.map Field.key ∧
      ∀ f ∈ c, ∃ f1 ∈ c1, f1.key = f.key ∧ f1.dflt = f.dflt ∧
        match es.lookup f.key with
        | some tv => unifyField unicodeLower f.value tv = .ok f1.value
        | none => f1.value = f.value := by
  induction es generalizing c with
  | nil =>
    simp only [unifyEntries, Prod.mk.injEq, and_true] at h
    subst h
    exact ⟨rfl, fun f hf => ⟨f, hf, rfl, rfl, rfl⟩⟩
  | cons e rest ih =>
    obtain ⟨k, tv⟩ := e
    simp only [List.map_cons, List.nodup_cons] at hes
    simp only [unifyEntries] at h
    cases hg : getField k c with
    | none =>
      rw [hg] at h
      dsimp only at h
      obtain ⟨hk1, hall⟩ := ih c hes.2 hc h
      refine ⟨hk1, fun f hf => ?_⟩
      obtain ⟨f1, hf1, e1, e2, e3⟩ := hall f hf
      refine ⟨f1, hf1, e1, e2, ?_⟩
      rw [lookup_cons_ne _ _ _ _ (getField_none k c hg f hf)]
      exact e3
    | some g =>
      rw [hg] at h
      dsimp only at h
      obtain ⟨hgmem, hgk⟩ := getField_some k c g hg
      cases hu : unifyField unicodeLower g.value tv with
      | error err =>
        rw [hu] at h
        simp at h
      | ok v =>
        rw [hu] at h
        have hc1 : ((setField k v c).map Field.key).Nodup := by
          rw [setField_keys]
          exact hc
        obtain ⟨hk1, hall⟩ := ih (setField k v c) hes.2 hc1 h
        refine ⟨hk1.trans (setField_keys k v c), fun f hf => ?_⟩
        by_cases hfk : f.key = k
        · have hfg : f = g :=
            List.inj_on_of_nodup_map hc hf hgmem (hfk.trans hgk.symm)
          obtain ⟨f1, hf1, e1, e2, e3⟩ :=
            hall { f with value := v } (mem_setField_of_eq k v c f hf hfk hc)
          refine ⟨f1, hf1, e1, e2, ?_⟩
          rw [hfk, lookup_cons_self]
          have hnone : rest.lookup k = none := lookup_none_of_not_mem k rest hes.1
          simp only [hfk, hnone] at e3
          simp only [hfg, e3]
          exact hu
        · obtain ⟨f1, hf1, e1, e2, e3⟩ := hall f (mem_setField_of_ne k v c f hf hfk)
          refine ⟨f1, hf1, e1, e2, ?_⟩
          rw [lookup_cons_ne _ _ _ _ hfk]
          exact e3

theorem SetDefaults_keys (c : Target) : (SetDefaults c).map Field.key = c.map Field.key := by
  unfold SetDefaults
  rw [List.map_map]
  apply List.map_congr_left
  intro f _
  simp only [Function.comp]
  split
  · split <;> rfl
  · rfl

theorem SetDefaults_mem (c : Target) (f : Field) (hf : f ∈ c) :
    ∃ f0 ∈ SetDefaults c, f0.key = f.key ∧ f0.dflt = f.dflt ∧ f0.value = presetOrDefault f := by
  refine ⟨_, List.mem_map_of_mem _ hf, ?_⟩
  unfold presetOrDefault
  cases hd : f.dflt with
  | none => simp [hd]
  | some d =>
    cases hz : f.value.isZero with
    | true => simp [hd]
    | false => simp [hd]

theorem printFilepath_ConfPath (p : Proc) : (printFilepath p).ConfPath = p.ConfPath := by
  unfold printFilepath
  split
  · rfl
  · split <;> rfl

theorem Parse_ok (host : Host) (p p1 : Proc) (c c1 : Target)
    (h : Parse host p c = (c1, p1, none)) :
    DecodeWithEnv host p.ConfPath (SetDefaults c) = (c1, none) := by
  unfold Parse ParseConfigWithoutDefaults at h
  dsimp only at h
  rw [printFilepath_ConfPath] at h
  rcases hd : DecodeWithEnv host p.ConfPath (SetDefaults c) with ⟨c2, e⟩
  rw [hd] at h
  cases e with
  | some err => simp at h
  | none =>
    dsimp only at h
    split at h
    · simp only [Prod.mk.injEq] at h
      rw [h.1]
    · simp only [Prod.mk.injEq] at h
      rw [h.1]

theorem DecodeWithEnv_read_error (host : Host) (fpath op reason : Bytes) (c : Target)
    (hr : host.readFile fpath = .error (op, reason)) :
    DecodeWithEnv host fpath c =
      (c, some (.annotated (.host (op ++ ascii " " ++ fpath ++ ascii ": " ++ reason))
        (ascii "DecodeWithEnv->ReadFile"))) := by
  unfold DecodeWithEnv ReadFile
  rw [hr]

theorem DecodeWithEnv_read_ok (host : Host) (fpath cf : Bytes) (c : Target)
    (hr : host.readFile fpath = .ok cf) :
    DecodeWithEnv host fpath c =
      match tomlDecode host (Expand cf (mapper host)) c with
      | (c1, some err) => (c1, some (.annotated err (ascii "DecodeWithEnv->Decode")))
      | (c1, none) => (c1, none) := by
  unfold DecodeWithEnv ReadFile
  rw [hr]

theorem DecodeWithEnv_ok (host : Host) (fpath : Bytes) (c c1 : Target)
    (h : DecodeWithEnv host fpath c = (c1, none)) :
    ∃ cf doc, host.readFile fpath = .ok cf ∧
      host.tomlParse (Expand cf (mapper host)) = .ok doc ∧
      unifyEntries host.unicodeLower doc.entries c = (c1, none) := by
  cases hr : host.readFile fpath with
  | error err =>
    obtain ⟨op, reason⟩ := err
    rw [DecodeWithEnv_read_error host fpath op reason c hr] at h
    simp at h
  | ok cf =>
    rw [DecodeWithEnv_read_ok host fpath cf c hr] at h
    unfold tomlDecode at h
    cases hp : host.tomlParse (Expand cf (mapper host)) with
    | error err =>
      rw [hp] at h
      simp at h
    | ok doc =>
      rw [hp] at h
      dsimp only at h
      rcases hu : unifyEntries host.unicodeLower doc.entries c with ⟨c2, e⟩
      rw [hu] at h
      cases e with
      | some err => simp at h
      | none =>
        simp only [Prod.mk.injEq, and_true] at h
        exact ⟨cf, doc, by first | exact hr | rfl, hp, h ▸ hu⟩

/-- C1: after a `Parse` without error, a field whose key is in the
environment-expanded file holds the value stored from the file, even when
calling code had set it; any other field holds the value set by calling code
when that value is non-zero, and else its declared default when it has one. -/
theorem Parse_resolved_value (host : Host) (p p1 : Proc) (c c1 : Target)
    (hkeys : (c.map Field.key).Nodup) (h : Parse host p c = (c1, p1, none)) :
    ∃ cf doc, host.readFile p.ConfPath = .ok cf ∧
      host.tomlParse (Expand cf (mapper host)) = .ok doc ∧
      c1.map Field.key = c.map Field.key ∧
      ∀ f ∈ c, ∃ f1 ∈ c1, f1.key = f.key ∧ f1.dflt = f.dflt ∧
        match doc.entries.lookup f.key with
        | some tv => unifyField host.unicodeLower (presetOrDefault f) tv = .ok f1.value
        | none => f1.value = presetOrDefault f := by
  obtain ⟨cf, doc, hr, hp, hu⟩ := DecodeWithEnv_ok host _ _ _ (Parse_ok host p p1 c c1 h)
  have hk0 : ((SetDefaults c).map Field.key).Nodup := by
    rw [SetDefaults_keys]
    exact hkeys
  obtain ⟨hk1, hall⟩ := unifyEntries_ok host.unicodeLower doc.entries _ c1 doc.nodup hk0 hu
  refine ⟨cf, doc, hr, hp, hk1.trans (SetDefaults_keys c), fun f hf => ?_⟩
  obtain ⟨f0, hf0, e1, e2, e3⟩ := SetDefaults_mem c f hf
  obtain ⟨f1, hf1, d1, d2, d3⟩ := hall f0 hf0
  refine ⟨f1, hf1, d1.trans e1, d2.trans e2, ?_⟩
  rw [e1, e3] at d3
  exact d3

/-- A witness of `Parse_resolved_value`: with the file `port = 9090`, the field
`port` set to 8080 in code ends as 9090, the field `name` left at zero ends as
its default `svc`, and the field `user` set to `root` in code keeps `root`. -/
theorem Parse_resolved_value_witness :
    (Parse exampleHost exampleProc exampleTarget).1 =
        [{ key := ascii "port", value := .int 9090, dflt := some (.int 80) },
         { key := ascii "name", value := .str (ascii "svc"), dflt := some (.str (ascii "svc")) },
         { key := ascii "user", value := .str (ascii "root"),
           dflt := some (.str (ascii "nobody")) }] ∧
      ∃ cf doc, exampleHost.readFile exampleProc.ConfPath = .ok cf ∧
        exampleHost.tomlParse (Expand cf (mapper exampleHost)) = .ok doc ∧
        (Parse exampleHost exampleProc exampleTarget).1.map Field.key
          = exampleTarget.map Field.key ∧
        ∀ f ∈ exampleTarget, ∃ f1 ∈ (Parse exampleHost exampleProc exampleTarget).1,
          f1.key = f.key ∧ f1.dflt = f.dflt ∧
          match doc.entries.lookup f.key with
          | some tv => unifyField exampleHost.unicodeLower (presetOrDefault f) tv = .ok f1.value
          | none => f1.value = presetOrDefault f :=
  ⟨by decide,
    Parse_resolved_value exampleHost exampleProc (Parse exampleHost exampleProc exampleTarget).2.1
      exampleTarget (Parse exampleHost exampleProc exampleTarget).1 (by decide) (by decide)⟩

/-- C8: the package comment gives the precedence code over file over default,
yet a field set to 8080 in code ends as 9090 when the file has `port = 9090`. -/
theorem Parse_file_overwrites_code :
    getField (ascii "port") exampleTarget
        = some { key := ascii "port", value := .int 8080, dflt := some (.int 80) } ∧
      exampleHost.readFile exampleProc.ConfPath = .ok (ascii "port = 9090") ∧
      (Parse exampleHost exampleProc exampleTarget).2.2 = none ∧
      getField (ascii "port") (Parse exampleHost exampleProc exampleTarget).1
        = some { key := ascii "port", value := .int 9090, dflt := some (.int 80) } :=
  ⟨by decide, rfl, by decide, by decide⟩

/-! ## The claims at concrete inputs -/

/-- A witness of `LogLevel_decode_encode_canonical`: `WaRn` is decoded and
printed back as `warn`. -/
theorem LogLevel_decode_encode_canonical_witness :
    ascii "warn" ∈ levelNames ∧ caseVariant (ascii "WaRn") (ascii "warn") ∧
      (LogLevel.UnmarshalText (fun s => s) 0 (ascii "WaRn")).2 = none ∧
      LogLevel.String (LogLevel.UnmarshalText (fun s => s) 0 (ascii "WaRn")).1 = ascii "warn" :=
  have hcase : caseVariant (ascii "WaRn") (ascii "warn") :=
    .cons (Or.inr rfl) (.cons (Or.inl rfl) (.cons (Or.inr rfl) (.cons (Or.inl rfl) .nil)))
  ⟨by decide, hcase,
    LogLevel_decode_encode_canonical (fun s => s) 0 (ascii "WaRn") (ascii "warn") (by decide)
      hcase⟩

/-- The claim C3 fails at 1025: its text is `1K`, which decodes to 1024. -/
theorem LogSize_roundtrip_counterexample :
    fitsInt64 1025 ∧ LogSize.String 1025 = ascii "1K" ∧
      LogSize.UnmarshalText (fun s => s) 0 (LogSize.String 1025) = (1024, none) ∧
      LogSize.UnmarshalText (fun s => s) 0 (LogSize.String 1025) ≠ (1025, none) :=
  ⟨by decide, by decide, by decide, by decide⟩

/-- A witness of `LogSize_roundtrip_iff`: 2048 is a multiple of its unit and
is decoded back from its text. -/
theorem LogSize_roundtrip_iff_witness :
    fitsInt64 2048 ∧
      LogSize.UnmarshalText (fun s => s) 0 (LogSize.String 2048) = (2048, none) :=
  ⟨by decide,
    (LogSize_roundtrip_iff (fun s => s) 0 2048 (by decide)).2 (Or.inr (Or.inl (by decide)))⟩

/-- A witness of `LogSize_unit_boundary`: 1024 is printed as `1K` and `1K` is
decoded to 1024. -/
theorem LogSize_unit_boundary_witness :
    ((75, 1024) : Nat × Int) ∈ sizeUnits ∧ LogSize.String 1024 = ascii "1K" ∧
      LogSize.UnmarshalText (fun s => s) 0 (ascii "1K") = (1024, none) :=
  ⟨by decide,
    LogSize_unit_boundary (fun s => s) 0 (75, 1024) 1 (by decide) (Or.inl (by decide))⟩

/-- A witness of `LogSize_unmarshal_error_iff`: the one-byte text `5` is
refused and the receiver keeps its value 7. -/
theorem LogSize_unmarshal_error_iff_witness :
    (LogSize.UnmarshalText (fun s => s) 7 (ascii "5")).2 ≠ none ∧
      (LogSize.UnmarshalText (fun s => s) 7 (ascii "5")).1 = 7 :=
  have h := LogSize_unmarshal_error_iff (fun s => s) 7 (ascii "5")
  have hne := h.1.2 (Or.inl (by decide))
  ⟨hne, h.2 hne⟩

/-- A witness of `LogLevel_unmarshal_unsupported`: `bogus` is refused with a
message that names it and the receiver keeps its level 3. -/
theorem LogLevel_unmarshal_unsupported_witness :
    LogLevel.UnmarshalText (fun s => s) 3 (ascii "bogus")
      = (3, some (.msg (ascii "not support log level bogus"))) :=
  (LogLevel_unmarshal_unsupported (fun s => s) 3 (ascii "bogus")).1 (by decide)

/-- A witness of `LogSize_unmarshal_scaled`: `-3m` is decoded to -3145728. -/
theorem LogSize_unmarshal_scaled_witness :
    2 ≤ (ascii "-3m").length ∧ (ascii "-3m").getLast? = some 109 ∧
      decimalInt (ascii "-3m").dropLast = some (-3) ∧ fitsInt64 (-3 * (1024 * 1024)) ∧
      LogSize.UnmarshalText (fun s => s) 0 (ascii "-3m") = (-3 * (1024 * 1024), none) :=
  ⟨by decide, by decide, by decide, by decide,
    (LogSize_unmarshal_scaled (fun s => s) 0 (ascii "-3m") 109 (-3) (by decide) (by decide)
      (by decide)).2.1 (Or.inl rfl) (by decide)⟩

/-- The claim C10 fails at 1024^4: the largest unit not above it is `G` and
the quotient is 1024, but the text is `unknown`, not `1024G`. -/
theorem LogSize_String_counterexample :
    largestUnit (71, 1024 * 1024 * 1024) 1099511627776 ∧
      LogSize.String 1099511627776 = ascii "unknown" ∧
      LogSize.String 1099511627776
        ≠ ascii (toString ((1099511627776 : Int) / (1024 * 1024 * 1024)).toNat) ++ [71] :=
  ⟨by decide, by decide, by decide⟩

/-- A witness of `LogSize_String_largest_unit`: 1536 is printed as `1K`. -/
theorem LogSize_String_largest_unit_witness :
    largestUnit (75, 1024) 1536 ∧ LogSize.String 1536 = ascii "1K" :=
  ⟨by decide,
    LogSize_String_largest_unit 1536 (75, 1024) (by decide) (by decide) (by decide)⟩

/-! ## os.Expand -/

/-- A text without `$` is left as it is by the loop of `Expand`. -/
theorem expandLoop_no_dollar (mapping : Bytes → Bytes) (fuel : Nat) (s : Bytes)
    (h : 36 ∉ s) : expandLoop mapping fuel s = s := by
  induction fuel generalizing s with
  | zero => rfl
  | succ fuel ih =>
    match s, h with
    | [], _ => rfl
    | [_], _ => rfl
    | c :: d :: rest, h =>
      have hc : c ≠ 36 := fun e => h (by simp [e])
      have hr : 36 ∉ d :: rest := fun hm => h (List.mem_cons_of_mem _ hm)
      simp only [expandLoop, if_neg hc, ih _ hr]

/-- The loop of `Expand` copies a start without `$` and goes on after it. -/
theorem expandLoop_copy (mapping : Bytes → Bytes) (pre s : Bytes) (fuel : Nat)
    (h : 36 ∉ pre) :
    expandLoop mapping (pre.length + fuel) (pre ++ s) = pre ++ expandLoop mapping fuel s := by
  induction pre with
  | nil => simp
  | cons c pre ih =>
    have hc : c ≠ 36 := fun e => h (by simp [e])
    have hr : 36 ∉ pre := fun hm => h (List.mem_cons_of_mem _ hm)
    have hf : (c :: pre).length + fuel = (pre.length + fuel) + 1 := by
      simp only [List.length_cons]
      omega
    rw [hf]
    cases hps : pre ++ s with
    | nil =>
      have hp : pre = [] := (List.append_eq_nil.1 hps).1
      have hs : s = [] := (List.append_eq_nil.1 hps).2
      subst hp hs
      cases fuel <;> simp [expandLoop]
    | cons d rest =>
      have ih1 := ih hr
      rw [hps] at ih1
      simp only [List.cons_append, hps, expandLoop, if_neg hc, ih1]

/-- The loop of `Expand` gives the same text for any two bounds that are at
least the length of the text. -/
theorem expandLoop_fuel (mapping : Bytes → Bytes) (fuel1 fuel2 : Nat) (s : Bytes)
    (h1 : s.length ≤ fuel1) (h2 : s.length ≤ fuel2) :
    expandLoop mapping fuel1 s = expandLoop mapping fuel2 s := by
  induction fuel1 generalizing fuel2 s with
  | zero =>
    have hs : s = [] := List.length_eq_zero.1 (by omega)
    subst hs
    cases fuel2 <;> rfl
  | succ fuel1 ih =>
    match s, h1, h2 with
    | [], _, _ => cases fuel2 <;> rfl
    | [c], _, h2 =>
      cases fuel2 with
      | zero => simp at h2
      | succ fuel2 => rfl
    | c :: d :: rest, h1, h2 =>
      cases fuel2 with
      | zero => simp at h2
      | succ fuel2 =>
        simp only [List.length_cons] at h1 h2
        simp only [expandLoop]
        split
        · rw [ih fuel2 _ (by simp only [List.length_drop, List.length_cons]; omega)
            (by simp only [List.length_drop, List.length_cons]; omega)]
        · rw [ih fuel2 _ (by simp only [List.length_cons]; omega)
            (by simp only [List.length_cons]; omega)]

theorem nameByte_ne (c : Nat) (h : nameByte c) : c ≠ 125 ∧ c ≠ 36 := by
  unfold nameByte at h
  omega

/-- The name read after `$` from a braced name of letters, digits and
underscores. -/
theorem getShellName_braced (name post : Bytes) (hne : name ≠ [])
    (hname : ∀ ch ∈ name, nameByte ch) :
    getShellName (123 :: (name ++ 125 :: post)) = (name, name.length + 2) := by
  have hno : 125 ∉ name := fun hm => (nameByte_ne _ (hname _ hm)).1 rfl
  have hidx : (name ++ 125 :: post).indexOf 125 = name.length := by
    rw [List.indexOf_append_of_not_mem hno, List.indexOf_cons_self]
    simp
  have hmem : 125 ∈ name ++ 125 :: post := by simp
  have hpos : name.length ≠ 0 := fun h => hne (List.length_eq_zero.1 h)
  simp only [getShellName]
  split
  · rename_i hsp
    split at hsp
    · rename_i c tl heq
      cases name with
      | nil => exact absurd rfl hne
      | cons a name1 =>
        cases name1 with
        | nil =>
          simp only [List.cons_append, List.nil_append, List.cons.injEq] at heq
          simp
        | cons b name2 =>
          simp only [List.cons_append, List.cons.injEq] at heq
          exact absurd heq.2.1 (nameByte_ne b (hname b (by simp))).1
    · cases hsp
  · rw [hidx, if_neg hpos, List.take_left]

theorem getShellName_dollar (post : Bytes) : getShellName (36 :: post) = ([36], 1) := by
  simp [getShellName, isShellSpecialVar]

theorem mapper_name (host : Host) (name : Bytes)
    (hname : ∀ ch ∈ name, nameByte ch) : mapper host name = host.getenv name := by
  unfold mapper
  rw [if_neg]
  intro h
  have h36 : (36 : Nat) ∈ name := by
    rw [h]
    decide
  exact (nameByte_ne 36 (hname 36 h36)).2 rfl

theorem mapper_dollar (host : Host) : mapper host [36] = [36] := by
  unfold mapper
  rw [if_pos (show [36] = ascii "$" from rfl)]
  rfl

theorem expandLoop_dollar (mapping : Bytes → Bytes) (fuel d : Nat) (rest : Bytes) :
    expandLoop mapping (fuel + 1) (36 :: d :: rest) =
      (if (getShellName (d :: rest)).1 = [] ∧ 0 < (getShellName (d :: rest)).2 then []
        else if (getShellName (d :: rest)).1 = [] then [36]
        else mapping (getShellName (d :: rest)).1) ++
        expandLoop mapping fuel ((d :: rest).drop (getShellName (d :: rest)).2) := by
  simp only [expandLoop, if_true]

/-- The expansion of a text with one braced name between two texts without `$`. -/
theorem Expand_braced (host : Host) (pre name post : Bytes) (hne : name ≠ [])
    (hname : ∀ ch ∈ name, nameByte ch) (hpre : 36 ∉ pre) (hpost : 36 ∉ post) :
    Expand (pre ++ ascii "$\x7b" ++ name ++ ascii "\x7d" ++ post) (mapper host)
      = pre ++ host.getenv name ++ post := by
  have e1 : pre ++ ascii "$\x7b" ++ name ++ ascii "\x7d" ++ post
      = pre ++ (36 :: 123 :: (name ++ 125 :: post)) := by
    have a1 : ascii "$\x7b" = [36, 123] := rfl
    have a2 : ascii "\x7d" = [125] := rfl
    rw [a1, a2]
    simp
  have e2 : (pre ++ (36 :: 123 :: (name ++ 125 :: post))).length
      = pre.length + ((name.length + post.length + 2) + 1) := by
    simp only [List.length_append, List.length_cons]
    omega
  have hdrop : (123 :: (name ++ 125 :: post)).drop (name.length + 2) = post := by
    have : 123 :: (name ++ 125 :: post) = (123 :: name ++ [125]) ++ post := by simp
    rw [this]
    have hl : (123 :: name ++ [125]).length = name.length + 2 := by simp
    rw [← hl, List.drop_left]
  unfold Expand
  rw [e1, e2, expandLoop_copy _ _ _ _ hpre, expandLoop_dollar,
    getShellName_braced name post hne hname]
  simp only [hne, false_and, if_false]
  rw [hdrop, expandLoop_no_dollar _ _ _ hpost, mapper_name host name hname]
  simp

/-- C11: when the file text is `pre`, a braced name of letters, digits and
underscores, and `post`, with no `$` in `pre` and `post`, the text that
`DecodeWithEnv` hands to the decoder is `pre`, the environment's value of the
name (empty when unset) and `post`; the expansion is a total function and the
only errors are those of the decoder. -/
theorem DecodeWithEnv_expands_braced (host : Host) (fpath : Bytes) (c : Target)
    (pre name post : Bytes) (hne : name ≠ []) (hname : ∀ ch ∈ name, nameByte ch)
    (hpre : 36 ∉ pre) (hpost : 36 ∉ post)
    (hread : host.readFile fpath = .ok (pre ++ ascii "$\x7b" ++ name ++ ascii "\x7d" ++ post)) :
    Expand (pre ++ ascii "$\x7b" ++ name ++ ascii "\x7d" ++ post) (mapper host)
        = pre ++ host.getenv name ++ post ∧
      DecodeWithEnv host fpath c =
        match tomlDecode host (pre ++ host.getenv name ++ post) c with
        | (c1, some err) => (c1, some (.annotated err (ascii "DecodeWithEnv->Decode")))
        | (c1, none) => (c1, none) := by
  have hex := Expand_braced host pre name post hne hname hpre hpost
  refine ⟨hex, ?_⟩
  rw [DecodeWithEnv_read_ok host fpath _ c hread]
  simp only [hex]

/-- The expansion of a text with `$$` after a text without `$`. -/
theorem Expand_dollar_step (host : Host) (pre post : Bytes) (hpre : 36 ∉ pre) :
    Expand (pre ++ ascii "$$" ++ post) (mapper host)
      = pre ++ ascii "$" ++ Expand post (mapper host) := by
  have a1 : ascii "$$" = [36, 36] := rfl
  have a2 : ascii "$" = [36] := rfl
  have e1 : pre ++ [36, 36] ++ post = pre ++ (36 :: 36 :: post) := by simp
  have e2 : (pre ++ (36 :: 36 :: post)).length = pre.length + ((post.length + 1) + 1) := by
    simp only [List.length_append, List.length_cons]
  unfold Expand
  rw [a1, a2, e1, e2, expandLoop_copy _ _ _ _ hpre, expandLoop_dollar, getShellName_dollar]
  simp only [List.cons_ne_nil, false_and, if_false, List.drop_succ_cons, List.drop_zero]
  rw [mapper_dollar, expandLoop_fuel _ (post.length + 1) post.length post (by omega)
    (Nat.le_refl _)]
  simp

/-- C12: `$$` after a text without `$` is replaced by one `$`, whatever the
environment, and the scan goes on after it, so the `$` written is not read
again; when `post` has no `$` the text becomes `pre`, `$` and `post`. -/
theorem Expand_double_dollar (host : Host) (pre post : Bytes) (hpre : 36 ∉ pre) :
    Expand (pre ++ ascii "$$" ++ post) (mapper host)
        = pre ++ ascii "$" ++ Expand post (mapper host) ∧
      (36 ∉ post → Expand (pre ++ ascii "$$" ++ post) (mapper host) = pre ++ ascii "$" ++ post) := by
  have h := Expand_dollar_step host pre post hpre
  refine ⟨h, fun hpost => ?_⟩
  rw [h]
  unfold Expand
  rw [expandLoop_no_dollar _ _ _ hpost]

/-! ## LogLevel: ranks and round trip -/

theorem logLevelMap_lookup_range (key : Bytes) (level : Nat)
    (h : logLevelMap.lookup key = some level) : 1 ≤ level ∧ level ≤ 6 := by
  by_cases hk : key ∈ levelNames
  · simp only [levelNames, List.mem_cons, List.mem_singleton, List.not_mem_nil, or_false] at hk
    rcases hk with rfl | rfl | rfl | rfl | rfl | rfl
    all_goals
      have h1 := Option.some.inj h.symm
      subst h1
      decide
  · rw [logLevelMap_lookup_none key hk] at h
    cases h

theorem LogLevel_unmarshal_ok_range (unicodeLower : Bytes → Bytes) (l : LogLevel)
    (text : Bytes) (h : (LogLevel.UnmarshalText unicodeLower l text).2 = none) :
    1 ≤ (LogLevel.UnmarshalText unicodeLower l text).1 ∧
      (LogLevel.UnmarshalText unicodeLower l text).1 ≤ 6 := by
  unfold LogLevel.UnmarshalText at h ⊢
  cases hl : logLevelMap.lookup (toLower unicodeLower text) with
  | none =>
    rw [hl] at h
    cases h
  | some level => exact logLevelMap_lookup_range _ _ hl

/-- C13: the ranks of the levels decoded from `trace`, `debug`, `info`, `warn`,
`error`, `fatal` increase strictly in that order, `Level` and `Value` agree,
every level decoded without error has a rank above `LogLevelNull`, and no
level has a rank below `LogLevelNull`. -/
theorem LogLevel_rank_order (unicodeLower : Bytes → Bytes) (l : LogLevel) :
    ((LogLevel.UnmarshalText unicodeLower l (ascii "trace")).2 = none ∧
      (LogLevel.UnmarshalText unicodeLower l (ascii "debug")).2 = none ∧
      (LogLevel.UnmarshalText unicodeLower l (ascii "info")).2 = none ∧
      (LogLevel.UnmarshalText unicodeLower l (ascii "warn")).2 = none ∧
      (LogLevel.UnmarshalText unicodeLower l (ascii "error")).2 = none ∧
      (LogLevel.UnmarshalText unicodeLower l (ascii "fatal")).2 = none) ∧
    ((LogLevel.UnmarshalText unicodeLower l (ascii "trace")).1.Level
        < (LogLevel.UnmarshalText unicodeLower l (ascii "debug")).1.Level ∧
      (LogLevel.UnmarshalText unicodeLower l (ascii "debug")).1.Level
        < (LogLevel.UnmarshalText unicodeLower l (ascii "info")).1.Level ∧
      (LogLevel.UnmarshalText unicodeLower l (ascii "info")).1.Level
        < (LogLevel.UnmarshalText unicodeLower l (ascii "warn")).1.Level ∧
      (LogLevel.UnmarshalText unicodeLower l (ascii "warn")).1.Level
        < (LogLevel.UnmarshalText unicodeLower l (ascii "error")).1.Level ∧
      (LogLevel.UnmarshalText unicodeLower l (ascii "error")).1.Level
        < (LogLevel.UnmarshalText unicodeLower l (ascii "fatal")).1.Level) ∧
    (∀ v : LogLevel, v.Level = v.Value) ∧
    (∀ text : Bytes, (LogLevel.UnmarshalText unicodeLower l text).2 = none →
      LogLevelNull < (LogLevel.UnmarshalText unicodeLower l text).1.Level) ∧
    (∀ v : LogLevel, LogLevelNull ≤ v.Level) := by
  have e1 : (LogLevel.UnmarshalText unicodeLower l (ascii "trace")).1.Level = 1 := rfl
  have e2 : (LogLevel.UnmarshalText unicodeLower l (ascii "debug")).1.Level = 2 := rfl
  have e3 : (LogLevel.UnmarshalText unicodeLower l (ascii "info")).1.Level = 3 := rfl
  have e4 : (LogLevel.UnmarshalText unicodeLower l (ascii "warn")).1.Level = 4 := rfl
  have e5 : (LogLevel.UnmarshalText unicodeLower l (ascii "error")).1.Level = 5 := rfl
  have e6 : (LogLevel.UnmarshalText unicodeLower l (ascii "fatal")).1.Level = 6 := rfl
  refine ⟨⟨rfl, rfl, rfl, rfl, rfl, rfl⟩, ?_, fun _ => rfl, ?_, ?_⟩
  · rw [e1, e2, e3, e4, e5, e6]
    decide
  · intro text h
    exact (LogLevel_unmarshal_ok_range unicodeLower l text h).1
  · intro v
    exact Nat.zero_le v

theorem LogLevel_String_unknown (v : Nat) (h : ¬ (1 ≤ v ∧ v ≤ 6)) :
    LogLevel.String v = ascii "unknown" := by
  have b1 : (v == LogLevelTrace) = false := beq_eq_false_iff_ne.2 (by unfold LogLevelTrace; omega)
  have b2 : (v == LogLevelDebug) = false := beq_eq_false_iff_ne.2 (by unfold LogLevelDebug; omega)
  have b3 : (v == LogLevelInfo) = false := beq_eq_false_iff_ne.2 (by unfold LogLevelInfo; omega)
  have b4 : (v == LogLevelWarning) = false :=
    beq_eq_false_iff_ne.2 (by unfold LogLevelWarning; omega)
  have b5 : (v == LogLevelError) = false := beq_eq_false_iff_ne.2 (by unfold LogLevelError; omega)
  have b6 : (v == LogLevelFatal) = false := beq_eq_false_iff_ne.2 (by unfold LogLevelFatal; omega)
  simp only [LogLevel.String, logLevelStrMap, List.lookup, b1, b2, b3, b4, b5, b6]

/-- C14, amended: decoding the text of a level `v` returns `v` without error
exactly when `v` is one of the six levels `trace` to `fatal`; the text of the
null sentinel, as of any other value, is `unknown`, which is not decoded. -/
theorem LogLevel_roundtrip_iff (unicodeLower : Bytes → Bytes) (l : LogLevel) (v : Nat) :
    (LogLevel.UnmarshalText unicodeLower l (LogLevel.String v) = (v, none) ↔ 1 ≤ v ∧ v ≤ 6) ∧
      (¬ (1 ≤ v ∧ v ≤ 6) → LogLevel.String v = ascii "unknown" ∧
        (LogLevel.UnmarshalText unicodeLower l (LogLevel.String v)).2 ≠ none) := by
  refine ⟨⟨?_, ?_⟩, ?_⟩
  · intro h
    have hr := LogLevel_unmarshal_ok_range unicodeLower l (LogLevel.String v) (by rw [h])
    rw [h] at hr
    exact hr
  · rintro ⟨h1, h2⟩
    interval_cases v <;> rfl
  · intro h
    refine ⟨LogLevel_String_unknown v h, ?_⟩
    rw [LogLevel_String_unknown v h]
    exact fun hn => by cases hn

/-! ## Errors of the pipeline -/

theorem DecodeWithEnv_reportsCause (host : Host) (quote : Bytes → Bytes) (fpath : Bytes)
    (c : Target) : reportsCause host quote fpath c (DecodeWithEnv host fpath c).2 := by
  unfold reportsCause
  cases hr : host.readFile fpath with
  | error e =>
    obtain ⟨op, reason⟩ := e
    rw [DecodeWithEnv_read_error host fpath op reason c hr]
    refine ⟨by simp, ?_⟩
    intro err herr
    simp only [Option.some.injEq] at herr
    subst herr
    refine Or.inl ⟨op, reason, rfl, rfl, ?_, ?_⟩
    · simp only [Error.text]
      exact ⟨ascii "DecodeWithEnv->ReadFile" ++ ascii ": " ++ (op ++ ascii " "),
        ascii ": " ++ reason, by simp⟩
    · simp only [Error.text]
      exact ⟨ascii "DecodeWithEnv->ReadFile" ++ ascii ": " ++ (op ++ ascii " " ++ fpath ++
        ascii ": "), [], by simp⟩
  | ok cf =>
    rw [DecodeWithEnv_read_ok host fpath cf c hr]
    rcases hd : tomlDecode host (Expand cf (mapper host)) c with ⟨c1, e⟩
    cases e with
    | none => simp [hd]
    | some cause =>
      refine ⟨by simp [hd], ?_⟩
      intro err herr
      simp only [Option.some.injEq] at herr
      subst herr
      refine Or.inr ⟨cf, cause, rfl, by rw [hd], rfl, ?_, ?_⟩
      · simp only [Error.text]
        exact ⟨ascii "DecodeWithEnv->Decode" ++ ascii ": ", [], by simp⟩
      · simp only [Error.text]
        rfl

theorem ParseConfigWithoutDefaults_error (host : Host) (p : Proc) (c : Target) :
    (ParseConfigWithoutDefaults host p c).2.2 = (DecodeWithEnv host p.ConfPath c).2 := by
  unfold ParseConfigWithoutDefaults
  rcases DecodeWithEnv host p.ConfPath c with ⟨c1, e⟩
  cases e <;> rfl

theorem Parse_error (host : Host) (p : Proc) (c : Target) :
    (Parse host p c).2.2 = (DecodeWithEnv host p.ConfPath (SetDefaults c)).2 := by
  unfold Parse ParseConfigWithoutDefaults
  dsimp only
  rw [printFilepath_ConfPath]
  rcases DecodeWithEnv host p.ConfPath (SetDefaults c) with ⟨c1, e⟩
  cases e with
  | some err => rfl
  | none =>
    dsimp only
    split <;> rfl

theorem ParseConfigWithPath_error (host : Host) (p : Proc) (c : Target) (path : Bytes) :
    (ParseConfigWithPath host p c path).2.2 = (DecodeWithEnv host path (SetDefaults c)).2 := by
  unfold ParseConfigWithPath
  dsimp only
  rcases DecodeWithEnv host path (SetDefaults c) with ⟨c1, e⟩
  cases e with
  | some err => rfl
  | none =>
    dsimp only
    split <;> rfl

/-- C15, amended: `Parse`, `ParseConfigWithoutDefaults` and
`ParseConfigWithPath` return an error exactly when the read or the decoding of
their file failed.  After a failed read the error is the `*os.PathError` of
`ioutil.ReadFile` annotated with `DecodeWithEnv->ReadFile`, and its message
names the path of the file and holds the reason of the failure.  After a failed
decoding the error is the decoder's error annotated with
`DecodeWithEnv->Decode`, and its message is `DecodeWithEnv->Decode: ` followed
by the message of that error, which it therefore contains; the path is in it
only when the decoder's message holds it. -/
theorem Parse_error_reports_cause (host : Host) (quote : Bytes → Bytes) (p : Proc)
    (c : Target) (path : Bytes) :
    reportsCause host quote p.ConfPath (SetDefaults c) (Parse host p c).2.2 ∧
      reportsCause host quote p.ConfPath c (ParseConfigWithoutDefaults host p c).2.2 ∧
      reportsCause host quote path (SetDefaults c) (ParseConfigWithPath host p c path).2.2 := by
  rw [Parse_error, ParseConfigWithoutDefaults_error, ParseConfigWithPath_error]
  exact ⟨DecodeWithEnv_reportsCause _ _ _ _, DecodeWithEnv_reportsCause _ _ _ _,
    DecodeWithEnv_reportsCause _ _ _ _⟩

/-- The claim C15 fails for a decoding error: with the file `level = "bogus"`
the message of the error of `Parse` is `DecodeWithEnv->Decode: not support log
level bogus`, in which the path `../conf/config.toml` does not occur. -/
theorem Parse_error_counterexample :
    (Parse levelHost exampleProc levelTarget).2.2
        = some (.annotated (.msg (ascii "not support log level bogus"))
            (ascii "DecodeWithEnv->Decode")) ∧
      Error.text (fun s => s)
          (.annotated (.msg (ascii "not support log level bogus")) (ascii "DecodeWithEnv->Decode"))
        = ascii "DecodeWithEnv->Decode: not support log level bogus" ∧
      ¬ (exampleProc.ConfPath <:+: ascii "DecodeWithEnv->Decode: not support log level bogus") :=
  ⟨by decide, by decide, by decide⟩

/-- A failed read: `Parse` for the path `missing.toml`, at which the example
host has no file, returns an error whose message names the path and holds the
reason. -/
theorem Parse_error_reports_cause_witness :
    (Parse exampleHost missingProc exampleTarget).2.2
        = some (.annotated (.host (ascii "open missing.toml: no such file or directory"))
            (ascii "DecodeWithEnv->ReadFile")) ∧
      Error.text id
          (.annotated (.host (ascii "open missing.toml: no such file or directory"))
            (ascii "DecodeWithEnv->ReadFile"))
        = ascii "DecodeWithEnv->ReadFile: open missing.toml: no such file or directory" ∧
      missingProc.ConfPath <:+:
        Error.text id
          (.annotated (.host (ascii "open missing.toml: no such file or directory"))
            (ascii "DecodeWithEnv->ReadFile")) ∧
      ascii "no such file or directory" <:+:
        Error.text id
          (.annotated (.host (ascii "open missing.toml: no such file or directory"))
            (ascii "DecodeWithEnv->ReadFile")) := by
  have hres : (Parse exampleHost missingProc exampleTarget).2.2
      = some (.annotated (.host (ascii "open missing.toml: no such file or directory"))
          (ascii "DecodeWithEnv->ReadFile")) := by decide
  have hread : exampleHost.readFile missingProc.ConfPath
      = .error (ascii "open", ascii "no such file or directory") := rfl
  rcases (Parse_error_reports_cause exampleHost id missingProc exampleTarget []).1.2 _ hres with
    ⟨op, reason, hr, -, hpath, hreason⟩ | ⟨cf, cause, hr, -⟩
  · rw [hread] at hr
    injection hr with hr
    injection hr with hop hrs
    subst hrs
    exact ⟨hres, by decide, hpath, hreason⟩
  · rw [hread] at hr
    injection hr

/-! ## The path line -/

theorem confFileLines_append (a b : List Output) :
    confFileLines (a ++ b) = confFileLines a + confFileLines b := by
  simp [confFileLines, List.countP_append]

theorem confTexts_append (a b : List Output) :
    confTexts (a ++ b) = confTexts a + confTexts b := by
  simp [confTexts, List.countP_append]

/-- The process after a call of `Parse`: the once-gate has run, and one path
line has been added exactly when the gate had not run and the toggle is on. -/
theorem Parse_proc (host : Host) (p : Proc) (c : Target) :
    (Parse host p c).2.1.onceDone = true ∧
      confFileLines (Parse host p c).2.1.stdout =
        confFileLines p.stdout + if p.onceDone = false ∧ p.PrintConf = true then 1 else 0 := by
  have hp : (printFilepath p).onceDone = true ∧
      confFileLines (printFilepath p).stdout =
        confFileLines p.stdout + if p.onceDone = false ∧ p.PrintConf = true then 1 else 0 := by
    unfold printFilepath
    cases h1 : p.onceDone <;> cases h2 : p.PrintConf <;>
      simp [h1, confFileLines_append, confFileLines]
  unfold Parse ParseConfigWithoutDefaults
  dsimp only
  rcases DecodeWithEnv host (printFilepath p).ConfPath (SetDefaults c) with ⟨c1, e⟩
  cases e with
  | some err =>
    dsimp only
    refine ⟨hp.1, ?_⟩
    rw [confFileLines_append, hp.2]
    simp [confFileLines]
  | none =>
    dsimp only
    split
    · dsimp only
      refine ⟨hp.1, ?_⟩
      rw [confFileLines_append, hp.2]
      simp [confFileLines]
    · exact hp

theorem runParses_done (host : Host) (calls : List (Bool × Target)) (p : Proc)
    (h : p.onceDone = true) :
    confFileLines (runParses host calls p).stdout = confFileLines p.stdout := by
  induction calls generalizing p with
  | nil => rfl
  | cons x rest ih =>
    obtain ⟨toggle, c⟩ := x
    simp only [runParses]
    have hq := Parse_proc host { p with PrintConf := toggle } c
    rw [ih _ hq.1, hq.2]
    simp [h]

/-- C16: in a sequence of one or more calls of `Parse` made from the start of
the process with the print toggle on, the path line is printed exactly once,
by the first call; in any sequence of calls, whatever the toggle at each call,
it is printed at most once. -/
theorem Parse_prints_path_once (host : Host) (calls : List (Bool × Target)) (p : Proc) :
    (p.onceDone = false → calls ≠ [] → (∀ x ∈ calls, x.1 = true) →
      confFileLines (runParses host (calls.take 1) p).stdout = confFileLines p.stdout + 1 ∧
        confFileLines (runParses host calls p).stdout = confFileLines p.stdout + 1) ∧
    confFileLines (runParses host calls p).stdout ≤ confFileLines p.stdout + 1 := by
  cases calls with
  | nil => simp [runParses]
  | cons x rest =>
    obtain ⟨toggle, c⟩ := x
    have hq := Parse_proc host { p with PrintConf := toggle } c
    have hrest := runParses_done host rest _ hq.1
    refine ⟨?_, ?_⟩
    · intro hfresh _ hall
      have ht : toggle = true := hall (toggle, c) (by simp)
      subst ht
      have h1 : confFileLines (Parse host { p with PrintConf := true } c).2.1.stdout
          = confFileLines p.stdout + 1 := by
        rw [hq.2]
        simp [hfresh]
      refine ⟨?_, ?_⟩
      · simp only [List.take_succ_cons, List.take_zero, runParses]
        exact h1
      · simp only [runParses]
        rw [hrest, h1]
    · simp only [runParses]
      rw [hrest, hq.2]
      dsimp only
      split <;> omega

/-! ## LogSize: overflow and digit-only texts -/

theorem wrapInt64_spec (z : Int) :
    fitsInt64 (wrapInt64 z) ∧ (wrapInt64 z - z) % 18446744073709551616 = 0 := by
  unfold fitsInt64 wrapInt64
  omega

/-- C17: for a text whose bytes before the last write an integer `n` that fits
in 64 bits and whose last byte is `k`, `m` or `g` in either case,
`LogSize.UnmarshalText` returns no error and stores the 64-bit integer that is
congruent to `n` times the multiplier modulo 2^64; for the text
`9223372036854775807G`, with a positive `n`, the value stored is negative and
is not the product. -/
theorem LogSize_unmarshal_wraps (unicodeLower : Bytes → Bytes) (l : LogSize) :
    (∀ (text : Bytes) (b : Nat) (n : Int), text.getLast? = some b →
      decimalInt text.dropLast = some n → fitsInt64 n → b ∈ [107, 75, 109, 77, 103, 71] →
      (LogSize.UnmarshalText unicodeLower l text).2 = none ∧
        fitsInt64 (LogSize.UnmarshalText unicodeLower l text).1 ∧
        ((LogSize.UnmarshalText unicodeLower l text).1 - n * unitMultiplier b)
          % 18446744073709551616 = 0) ∧
    (decimalInt (ascii "9223372036854775807G").dropLast = some 9223372036854775807 ∧
      LogSize.UnmarshalText unicodeLower l (ascii "9223372036854775807G")
        = (-1073741824, none) ∧
      (-1073741824 : Int) ≠ 9223372036854775807 * unitMultiplier 71) := by
  refine ⟨?_, by decide, rfl, by decide⟩
  intro text b n hb hn hfit hunit
  have htext : text.dropLast ++ [b] = text := List.dropLast_append_getLast? b (by simp [hb])
  have hp : parseInt text.dropLast = .ok n := (parseInt_ok_iff _ _).2 ⟨hn, hfit.1, hfit.2⟩
  simp only [List.mem_cons, List.mem_singleton, List.not_mem_nil, or_false] at hunit
  have h := LogSize_unmarshal_ascii unicodeLower l text.dropLast b n (by omega) hp
  rw [htext] at h
  rw [h]
  unfold unitMultiplier
  by_cases h1 : b = 107 ∨ b = 75
  · rw [if_pos h1, if_pos h1]
    exact ⟨rfl, wrapInt64_spec _⟩
  · rw [if_neg h1, if_neg h1]
    by_cases h2 : b = 109 ∨ b = 77
    · rw [if_pos h2, if_pos h2]
      exact ⟨rfl, wrapInt64_spec _⟩
    · rw [if_neg h2, if_neg h2]
      have h3 : b = 103 ∨ b = 71 := by omega
      rw [if_pos h3, if_pos h3]
      exact ⟨rfl, wrapInt64_spec _⟩

theorem decimalInt_digits (ds : Bytes) (hne : ds ≠ []) (hd : ds.all isDigit = true) :
    decimalInt ds = some (decimalValue ds : Int) := by
  cases ds with
  | nil => exact absurd rfl hne
  | cons c rest =>
    have hc : 48 ≤ c ∧ c ≤ 57 := by
      simp only [List.all_cons, Bool.and_eq_true, isDigit, decide_eq_true_eq] at hd
      exact hd.1
    rw [decimalInt_unsigned c rest (by omega) (by omega), if_pos hd]

/-- C18, amended: for a text of two or more decimal digits, the last digit is
taken as a unit of multiplier 1 and dropped: when the number written by the
digits before it fits in 64 bits, `LogSize.UnmarshalText` returns no error and
stores that number; when it does not fit, it returns a range error. -/
theorem LogSize_unmarshal_digits (unicodeLower : Bytes → Bytes) (l : LogSize) (text : Bytes)
    (hlen : 2 ≤ text.length) (hd : text.all isDigit = true) :
    (decimalValue text.dropLast ≤ 9223372036854775807 →
      LogSize.UnmarshalText unicodeLower l text = ((decimalValue text.dropLast : Int), none)) ∧
    (9223372036854775807 < decimalValue text.dropLast →
      LogSize.UnmarshalText unicodeLower l text = (l, some (.numRange text.dropLast))) := by
  have hne : text ≠ [] := by
    intro h
    rw [h] at hlen
    simp at hlen
  have htext : text.dropLast ++ [text.getLast hne] = text := List.dropLast_append_getLast hne
  have hall : ∀ x ∈ text, isDigit x = true := List.all_eq_true.1 hd
  have hlast : isDigit (text.getLast hne) = true := hall _ (List.getLast_mem hne)
  have hb : 48 ≤ text.getLast hne ∧ text.getLast hne ≤ 57 := by
    simpa [isDigit] using hlast
  have hpre_ne : text.dropLast ≠ [] := by
    intro h
    have : text.dropLast.length = 0 := by rw [h]; rfl
    rw [List.length_dropLast] at this
    omega
  have hpre_d : text.dropLast.all isDigit = true :=
    List.all_eq_true.2 fun x hx => hall x (List.mem_of_mem_dropLast hx)
  have hdec := decimalInt_digits text.dropLast hpre_ne hpre_d
  refine ⟨?_, ?_⟩
  · intro hfit
    have hp : parseInt text.dropLast = .ok (decimalValue text.dropLast : Int) :=
      (parseInt_ok_iff _ _).2 ⟨hdec, by omega, by omega⟩
    have h := LogSize_unmarshal_ascii unicodeLower l text.dropLast (text.getLast hne) _
      (by omega) hp
    rw [htext] at h
    rw [h, if_neg (by omega), if_neg (by omega), if_neg (by omega)]
  · intro hbig
    have hspec := parseInt_spec text.dropLast
    rw [hdec] at hspec
    dsimp only at hspec
    rw [if_neg (by omega)] at hspec
    have h := LogSize_unmarshal_snoc unicodeLower l text.dropLast (text.getLast hne) hpre_ne
    rw [htext, hspec] at h
    exact h

/-- The claim C18 fails at `92233720368547758080`: the digits before the last
write 2^63, which does not fit, and the text is refused with a range error. -/
theorem LogSize_unmarshal_digits_counterexample :
    2 ≤ (ascii "92233720368547758080").length ∧
      (ascii "92233720368547758080").all isDigit = true ∧
      LogSize.UnmarshalText (fun s => s) 7 (ascii "92233720368547758080")
        = (7, some (.numRange (ascii "9223372036854775808"))) :=
  ⟨by decide, by decide, by decide⟩

/-! ## The target after a failed Parse -/

/-- Whatever the outcome, the decoder keeps the keys of the target and leaves
alone every field whose key is not in the document. -/
theorem unifyEntries_untouched (unicodeLower : Bytes → Bytes)
    (es : List (Bytes × TomlValue)) (c : Target) :
    (unifyEntries unicodeLower es c).1.map Field.key = c.map Field.key ∧
      ∀ f ∈ c, f.key ∉ es.map Prod.fst → f ∈ (unifyEntries unicodeLower es c).1 := by
  induction es generalizing c with
  | nil => exact ⟨rfl, fun f hf _ => hf⟩
  | cons e rest ih =>
    obtain ⟨k, tv⟩ := e
    simp only [unifyEntries]
    cases hg : getField k c with
    | none =>
      dsimp only
      refine ⟨(ih c).1, fun f hf hk => (ih c).2 f hf ?_⟩
      simp only [List.map_cons, List.mem_cons, not_or] at hk
      exact hk.2
    | some g =>
      dsimp only
      cases hu : unifyField unicodeLower g.value tv with
      | error err => exact ⟨rfl, fun f hf _ => hf⟩
      | ok v =>
        dsimp only
        refine ⟨((ih _).1).trans (setField_keys k v c), fun f hf hk => ?_⟩
        simp only [List.map_cons, List.mem_cons, not_or] at hk
        exact (ih _).2 f (mem_setField_of_ne k v c f hf hk.1) hk.2

theorem Parse_failure (host : Host) (p p1 : Proc) (c c1 : Target) (err : Error)
    (h : Parse host p c = (c1, p1, some err)) :
    DecodeWithEnv host p.ConfPath (SetDefaults c) = (c1, some err) ∧
      p1.stdout = (printFilepath p).stdout ++ [.failure err] := by
  unfold Parse ParseConfigWithoutDefaults at h
  dsimp only at h
  rw [printFilepath_ConfPath] at h
  rcases hd : DecodeWithEnv host p.ConfPath (SetDefaults c) with ⟨c2, e⟩
  rw [hd] at h
  cases e with
  | some err2 =>
    simp only [Prod.mk.injEq, Option.some.injEq] at h
    obtain ⟨h1, h2, h3⟩ := h
    subst h1 h3
    refine ⟨rfl, ?_⟩
    rw [← h2]
  | none =>
    dsimp only at h
    split at h <;> simp at h

theorem printFilepath_confTexts (p : Proc) :
    confTexts (printFilepath p).stdout = confTexts p.stdout := by
  unfold printFilepath
  split
  · rfl
  · split
    · simp [confTexts_append, confTexts]
    · rfl

/-- C19: when `Parse` returns an error the target is not restored: it keeps
its keys and is the target with the defaults filled in, as the decoder left
it; after a read error it is exactly the target with the defaults filled in;
every field that the decoder did not reach holds the value set in code when
non-zero and else its declared default; and the error is printed but no
resolved-configuration text is. -/
theorem Parse_failure_keeps_defaults (host : Host) (p p1 : Proc) (c c1 : Target) (err : Error)
    (h : Parse host p c = (c1, p1, some err)) :
    p1.stdout = (printFilepath p).stdout ++ [.failure err] ∧
      confTexts p1.stdout = confTexts p.stdout ∧
      c1.map Field.key = c.map Field.key ∧
      ((∃ e, host.readFile p.ConfPath = .error e) → c1 = SetDefaults c) ∧
      (∀ cf, host.readFile p.ConfPath = .ok cf →
        c1 = (tomlDecode host (Expand cf (mapper host)) (SetDefaults c)).1) ∧
      (∀ f ∈ c,
        (∀ cf doc, host.readFile p.ConfPath = .ok cf →
          host.tomlParse (Expand cf (mapper host)) = .ok doc →
          f.key ∉ doc.entries.map Prod.fst) →
        ∃ f1 ∈ c1, f1.key = f.key ∧ f1.value = presetOrDefault f) := by
  obtain ⟨hd, hout⟩ := Parse_failure host p p1 c c1 err h
  have hread : (∃ e, host.readFile p.ConfPath = .error e) → c1 = SetDefaults c := by
    rintro ⟨⟨op, reason⟩, he⟩
    rw [DecodeWithEnv_read_error host _ op reason _ he] at hd
    simp only [Prod.mk.injEq] at hd
    exact hd.1.symm
  have hdec : ∀ cf, host.readFile p.ConfPath = .ok cf →
      c1 = (tomlDecode host (Expand cf (mapper host)) (SetDefaults c)).1 := by
    intro cf hcf
    rw [DecodeWithEnv_read_ok host _ cf _ hcf] at hd
    rcases ht : tomlDecode host (Expand cf (mapper host)) (SetDefaults c) with ⟨c2, e⟩
    rw [ht] at hd
    cases e with
    | some err2 =>
      simp only [Prod.mk.injEq] at hd
      exact hd.1.symm
    | none => simp at hd
  have hkeys_dec : ∀ cf, (tomlDecode host (Expand cf (mapper host)) (SetDefaults c)).1.map
      Field.key = c.map Field.key := by
    intro cf
    unfold tomlDecode
    cases host.tomlParse (Expand cf (mapper host)) with
    | error e => exact SetDefaults_keys c
    | ok doc =>
      exact ((unifyEntries_untouched host.unicodeLower doc.entries _).1).trans
        (SetDefaults_keys c)
  refine ⟨hout, ?_, ?_, hread, hdec, ?_⟩
  · rw [hout, confTexts_append, printFilepath_confTexts]
    simp [confTexts]
  · cases hr : host.readFile p.ConfPath with
    | error e =>
      rw [hread ⟨e, hr⟩]
      exact SetDefaults_keys c
    | ok cf =>
      rw [hdec cf hr]
      exact hkeys_dec cf
  · intro f hf hnot
    obtain ⟨f0, hf0, e1, -, e3⟩ := SetDefaults_mem c f hf
    cases hr : host.readFile p.ConfPath with
    | error e =>
      rw [hread ⟨e, hr⟩]
      exact ⟨f0, hf0, e1, e3⟩
    | ok cf =>
      rw [hdec cf hr]
      unfold tomlDecode
      cases hp : host.tomlParse (Expand cf (mapper host)) with
      | error e => exact ⟨f0, hf0, e1, e3⟩
      | ok doc =>
        dsimp only
        have hk : f0.key ∉ doc.entries.map Prod.fst := by
          rw [e1]
          exact hnot cf doc hr hp
        exact ⟨f0, (unifyEntries_untouched host.unicodeLower doc.entries _).2 f0 hf0 hk,
          e1, e3⟩

/-! ## The later claims at concrete inputs -/

/-- A witness of `DecodeWithEnv_expands_braced`: with `HOME=/root` the line
`path = "$\x7bHOME\x7d/data"` is handed to the decoder as `path = "/root/data"`
and the field `path` ends as `/root/data`. -/
theorem DecodeWithEnv_expands_braced_witness :
    Expand (ascii "path = \"$\x7bHOME\x7d/data\"") (mapper envHost)
        = ascii "path = \"/root/data\"" ∧
      DecodeWithEnv envHost (ascii "../conf/config.toml") pathTarget
        = ([{ key := ascii "path", value := .str (ascii "/root/data"), dflt := none }], none) :=
  DecodeWithEnv_expands_braced envHost (ascii "../conf/config.toml") pathTarget
    (ascii "path = \"") (ascii "HOME") (ascii "/data\"") (by decide) (by decide) (by decide)
    (by decide) rfl

/-- A witness of `Expand_double_dollar`: `a$$HOME` becomes `a$HOME` although
`HOME` is set. -/
theorem Expand_double_dollar_witness :
    envHost.getenv (ascii "HOME") = ascii "/root" ∧
      Expand (ascii "a$$HOME") (mapper envHost) = ascii "a$HOME" :=
  ⟨rfl, (Expand_double_dollar envHost (ascii "a") (ascii "HOME") (by decide)).2 (by decide)⟩

/-- The claim C14 fails at the null sentinel: its text is `unknown`, which
`UnmarshalText` refuses. -/
theorem LogLevel_roundtrip_counterexample :
    LogLevel.String LogLevelNull = ascii "unknown" ∧
      LogLevel.UnmarshalText (fun s => s) LogLevelNull (LogLevel.String LogLevelNull)
        = (LogLevelNull, some (.msg (ascii "not support log level unknown"))) :=
  ⟨by decide, by decide⟩

/-- A witness of `LogLevel_roundtrip_iff`: the level `warn` is decoded back
from its text. -/
theorem LogLevel_roundtrip_iff_witness :
    LogLevel.UnmarshalText (fun s => s) 0 (LogLevel.String LogLevelWarning)
      = (LogLevelWarning, none) :=
  (LogLevel_roundtrip_iff (fun s => s) 0 4).1.2 (by decide)

/-- A witness of `Parse_prints_path_once`: two calls with the toggle on print
the path line once. -/
theorem Parse_prints_path_once_witness :
    confFileLines
        (runParses exampleHost [(true, exampleTarget), (true, exampleTarget)] exampleProc).stdout
      = 1 :=
  ((Parse_prints_path_once exampleHost [(true, exampleTarget), (true, exampleTarget)]
    exampleProc).1 rfl (by decide) (by decide)).2

/-- A witness of `LogSize_unmarshal_digits`: `1024` is decoded to 102. -/
theorem LogSize_unmarshal_digits_witness :
    2 ≤ (ascii "1024").length ∧ (ascii "1024").all isDigit = true ∧
      LogSize.UnmarshalText (fun s => s) 0 (ascii "1024") = (102, none) :=
  ⟨by decide, by decide,
    (LogSize_unmarshal_digits (fun s => s) 0 (ascii "1024") (by decide) (by decide)).1
      (by decide)⟩

/-- A witness of `Parse_failure_keeps_defaults`: with no file at the path,
`Parse` returns an error, prints no configuration and leaves the target with
its defaults filled in, which is not the target it was given. -/
theorem Parse_failure_keeps_defaults_witness :
    (Parse exampleHost missingProc exampleTarget).2.2
        = some (.annotated (.host (ascii "open missing.toml: no such file or directory"))
            (ascii "DecodeWithEnv->ReadFile")) ∧
      (Parse exampleHost missingProc exampleTarget).1 = SetDefaults exampleTarget ∧
      SetDefaults exampleTarget ≠ exampleTarget ∧
      confTexts (Parse exampleHost missingProc exampleTarget).2.1.stdout = 0 :=
  have h := Parse_failure_keeps_defaults exampleHost missingProc
    (Parse exampleHost missingProc exampleTarget).2.1 exampleTarget
    (Parse exampleHost missingProc exampleTarget).1
    (.annotated (.host (ascii "open missing.toml: no such file or directory"))
      (ascii "DecodeWithEnv->ReadFile")) (by decide)
  ⟨by decide, h.2.2.2.1 ⟨_, rfl⟩, by decide, h.2.1⟩

/-! ## Duration: the text written -/

theorem halfEven_natCast (m : Nat) : halfEven (m : ℚ) = m := by
  unfold halfEven
  have h1 : Int.floor (m : ℚ) = (m : Int) := Int.floor_natCast m
  simp only [h1]
  norm_num

/-- A natural number below 2^53 is a `float64`: rounding leaves it as it is. -/
theorem round64_natCast (n : Nat) (h : n < 2 ^ 53) : round64 (n : ℚ) = n := by
  unfold round64
  by_cases h0 : n = 0
  · subst h0
    simp
  · have hpos : ¬ ((n : ℚ) ≤ 0) := by
      have : (0 : ℚ) < n := by exact_mod_cast Nat.pos_of_ne_zero h0
      linarith
    rw [if_neg hpos]
    have hl : n.log2 < 53 := (Nat.log2_lt h0).2 h
    have hle : 2 ^ n.log2 ≤ n := Nat.log2_self_le h0
    have hnum : (n : ℚ).num.toNat = n := by simp
    have hden : (n : ℚ).den = 1 := by simp
    have hlog1 : Nat.log2 1 = 0 := by
      have : Nat.log2 1 < 1 := (Nat.log2_lt (by decide)).2 (by decide)
      omega
    simp only [hnum, hden, hlog1]
    have e1 : ((n.log2 : Int) - ((0 : ℕ) : Int) - 52 + 52) = (n.log2 : Int) := by
      simp
    have hge : ¬ ((n : ℚ) < (2 : ℚ) ^ ((n.log2 : Int) - ((0 : ℕ) : Int) - 52 + 52)) := by
      rw [e1, zpow_natCast]
      have : ((2 ^ n.log2 : ℕ) : ℚ) ≤ (n : ℚ) := by exact_mod_cast hle
      push_cast at this
      linarith
    rw [if_neg hge]
    obtain ⟨k, hk⟩ : ∃ k : ℕ, (n.log2 : Int) - ((0 : ℕ) : Int) - 52 = -(k : Int) :=
      ⟨52 - n.log2, by omega⟩
    rw [hk]
    have hq : (n : ℚ) / (2 : ℚ) ^ (-(k : Int)) = ((n * 2 ^ k : ℕ) : ℚ) := by
      rw [zpow_neg, zpow_natCast]
      push_cast
      field_simp
    rw [hq, halfEven_natCast, zpow_neg, zpow_natCast]
    push_cast
    field_simp

theorem floatToUint64_natCast (n : Nat) (h : n < 18446744073709551616) :
    floatToUint64 (n : ℚ) = n := by
  unfold floatToUint64
  rw [Int.floor_natCast, Int.toNat_natCast, Nat.mod_eq_of_lt h]

theorem fmtIntLoop_eq_fmtDigits (f1 f2 v : Nat) (buf : Bytes) (h0 : 0 < v) (h1 : v ≤ f1)
    (h2 : v ≤ f2) : fmtIntLoop f1 v buf = fmtDigits f2 v buf := by
  induction f1 generalizing f2 v buf with
  | zero => omega
  | succ f1 ih =>
    cases f2 with
    | zero => omega
    | succ f2 =>
      simp only [fmtIntLoop, fmtDigits, if_pos h0]
      by_cases h10 : 10 ≤ v
      · rw [if_pos h10, ih f2 (v / 10) _ (by omega) (by omega) (by omega)]
        congr 2
        omega
      · rw [if_neg h10]
        have hz : v / 10 = 0 := by omega
        rw [hz]
        have hl : fmtIntLoop f1 0 ((v % 10 + 48) :: buf) = (v % 10 + 48) :: buf := by
          cases f1 <;> simp [fmtIntLoop]
        rw [hl]
        congr 1
        omega

/-- The function `fmtInt` writes the decimal digits of `v` before the buffer. -/
theorem fmtInt_eq (buf : Bytes) (v : Nat) : fmtInt buf v = fmtDigits v v [] ++ buf := by
  unfold fmtInt
  by_cases h : v = 0
  · subst h
    simp [fmtDigits]
  · rw [if_neg h, fmtIntLoop_eq_fmtDigits v v v buf (by omega) (Nat.le_refl _) (Nat.le_refl _),
      fmtDigits_append]

/-- The loop of `fmtFrac` once a digit has been written: all `n` digits follow. -/
theorem fmtFracLoop_true (n v : Nat) (buf : Bytes) :
    ∃ ds, fmtFracLoop n v true buf = (ds ++ buf, v / 10 ^ n, true) ∧ ds.all isDigit = true ∧
      ds.length = n ∧ decimalValue ds = v % 10 ^ n := by
  induction n generalizing v buf with
  | zero => exact ⟨[], by simp [fmtFracLoop], rfl, rfl, by simp [decimalValue, Nat.mod_one]⟩
  | succ n ih =>
    obtain ⟨ds, h1, h2, h3, h4⟩ := ih (v / 10) ((v % 10 + 48) :: buf)
    refine ⟨ds ++ [v % 10 + 48], ?_, ?_, ?_, ?_⟩
    · simp only [fmtFracLoop, Bool.true_or, if_true, h1, List.append_assoc, List.singleton_append,
        Prod.mk.injEq, true_and, and_true]
      rw [Nat.div_div_eq_div_mul, pow_succ, Nat.mul_comm]
    · rw [List.all_append, h2]
      simp [isDigit]
      omega
    · simp [h3]
    · rw [decimalValue_snoc, h4, pow_succ, Nat.mul_comm (10 ^ n) 10, Nat.mod_mul]
      omega

/-- The loop of `fmtFrac` from the start: nothing is written for a zero
fraction, and else the digits of the fraction down to its last non-zero digit. -/
theorem fmtFracLoop_false (n v : Nat) (buf : Bytes) :
    (v % 10 ^ n = 0 ∧ fmtFracLoop n v false buf = (buf, v / 10 ^ n, false)) ∨
    (∃ ds, fmtFracLoop n v false buf = (ds ++ buf, v / 10 ^ n, true) ∧
      ds.all isDigit = true ∧ 1 ≤ ds.length ∧ ds.length ≤ n ∧
      decimalValue ds * 10 ^ (n - ds.length) = v % 10 ^ n ∧ 0 < v % 10 ^ n) := by
  induction n generalizing v buf with
  | zero => exact Or.inl ⟨by simp [Nat.mod_one], by simp [fmtFracLoop]⟩
  | succ n ih =>
    have hmod : v % 10 ^ (n + 1) = v % 10 + 10 * (v / 10 % 10 ^ n) := by
      rw [pow_succ, Nat.mul_comm (10 ^ n) 10, Nat.mod_mul]
    have hdiv : v / 10 / 10 ^ n = v / 10 ^ (n + 1) := by
      rw [Nat.div_div_eq_div_mul, pow_succ, Nat.mul_comm]
    by_cases hd : v % 10 = 0
    · have hstep : fmtFracLoop (n + 1) v false buf = fmtFracLoop n (v / 10) false buf := by
        simp [fmtFracLoop, hd]
      rcases ih (v / 10) buf with ⟨hz, hres⟩ | ⟨ds, hres, h2, h3, h4, h5, h6⟩
      · refine Or.inl ⟨by omega, ?_⟩
        rw [hstep, hres, hdiv]
      · refine Or.inr ⟨ds, ?_, h2, h3, by omega, ?_, by omega⟩
        · rw [hstep, hres, hdiv]
        · rw [hmod, hd, ← h5]
          have he : n + 1 - ds.length = (n - ds.length) + 1 := by omega
          rw [he, pow_succ]
          ring
    · have hstep : fmtFracLoop (n + 1) v false buf
          = fmtFracLoop n (v / 10) true ((v % 10 + 48) :: buf) := by
        simp [fmtFracLoop, hd]
      obtain ⟨ds, h1, h2, h3, h4⟩ := fmtFracLoop_true n (v / 10) ((v % 10 + 48) :: buf)
      refine Or.inr ⟨ds ++ [v % 10 + 48], ?_, ?_, by simp, by simp [h3], ?_, by omega⟩
      · rw [hstep, h1, hdiv]
        simp
      · rw [List.all_append, h2]
        simp [isDigit]
        omega
      · have hl : (ds ++ [v % 10 + 48]).length = n + 1 := by simp [h3]
        rw [hl, Nat.sub_self, pow_zero, Nat.mul_one, decimalValue_snoc, h4, hmod]
        omega

/-- The function `fmtFrac`: either the fraction is zero and the buffer is left
as it is, or a point and the digits of the fraction are written before it. -/
theorem fmtFrac_spec (buf : Bytes) (v prec : Nat) :
    (v % 10 ^ prec = 0 ∧ fmtFrac buf v prec = (buf, v / 10 ^ prec)) ∨
    (∃ fs, fmtFrac buf v prec = (46 :: (fs ++ buf), v / 10 ^ prec) ∧
      fs.all isDigit = true ∧ 1 ≤ fs.length ∧ fs.length ≤ prec ∧
      decimalValue fs * 10 ^ (prec - fs.length) = v % 10 ^ prec ∧ 0 < v % 10 ^ prec) := by
  unfold fmtFrac
  rcases fmtFracLoop_false prec v buf with ⟨hz, hres⟩ | ⟨ds, hres, h2, h3, h4, h5, h6⟩
  · exact Or.inl ⟨hz, by rw [hres]; rfl⟩
  · exact Or.inr ⟨ds, by rw [hres]; rfl, h2, h3, h4, h5, h6⟩

/-! ## Duration: the text read -/

theorem leadingInt_digits (ds rest : Bytes) (x : Nat) (hd : ds.all isDigit = true)
    (hrest : ∀ c, rest.head? = some c → isDigit c = false)
    (hb : ds.foldl (fun a d => 10 * a + (d - 48)) x ≤ 922337203685477580) :
    leadingInt (ds ++ rest) x = some (ds.foldl (fun a d => 10 * a + (d - 48)) x, rest) := by
  induction ds generalizing x with
  | nil =>
    cases rest with
    | nil => rfl
    | cons c r =>
      have hc := hrest c rfl
      simp only [isDigit, Bool.and_eq_false_imp, decide_eq_true_eq, decide_eq_false_iff_not] at hc
      have hc2 : c < 48 ∨ 57 < c := by
        by_cases h48 : 48 ≤ c
        · exact Or.inr (by have := hc h48; omega)
        · exact Or.inl (by omega)
      simp only [List.nil_append, leadingInt, if_pos hc2, List.foldl_nil]
  | cons c ds ih =>
    simp only [List.all_cons, Bool.and_eq_true, isDigit, decide_eq_true_eq] at hd
    obtain ⟨⟨h1, h2⟩, hds⟩ := hd
    simp only [List.foldl_cons] at hb ⊢
    have hge := decimalFold_ge ds (10 * x + (c - 48))
    have e : x * 10 + c - 48 = 10 * x + (c - 48) := by omega
    simp only [List.cons_append, leadingInt]
    rw [if_neg (by omega), if_neg (by omega), if_neg (by omega), e]
    exact ih _ hds hb

theorem pow10_lt_two53 (j : Nat) (h : j ≤ 15) : 10 ^ j < 2 ^ 53 := by
  have h1 : 10 ^ j ≤ 10 ^ 15 := Nat.pow_le_pow_right (by decide) h
  have h2 : (10 : Nat) ^ 15 < 2 ^ 53 := by norm_num
  omega

theorem leadingFraction_digits (fs rest : Bytes) (x j : Nat) (hd : fs.all isDigit = true)
    (hrest : ∀ c, rest.head? = some c → isDigit c = false)
    (hb : fs.foldl (fun a d => 10 * a + (d - 48)) x ≤ 922337203685477580)
    (hj : j + fs.length ≤ 15) :
    leadingFraction (fs ++ rest) x ((10 : ℚ) ^ j) false
      = (fs.foldl (fun a d => 10 * a + (d - 48)) x, (10 : ℚ) ^ (j + fs.length), rest) := by
  induction fs generalizing x j with
  | nil =>
    cases rest with
    | nil => rfl
    | cons c r =>
      have hc := hrest c rfl
      simp only [isDigit, Bool.and_eq_false_imp, decide_eq_true_eq, decide_eq_false_iff_not] at hc
      have hc2 : c < 48 ∨ 57 < c := by
        by_cases h48 : 48 ≤ c
        · exact Or.inr (by have := hc h48; omega)
        · exact Or.inl (by omega)
      simp only [List.nil_append, leadingFraction, if_pos hc2, List.foldl_nil, List.length_nil,
        Nat.add_zero]
  | cons c fs ih =>
    simp only [List.all_cons, Bool.and_eq_true, isDigit, decide_eq_true_eq] at hd
    obtain ⟨⟨h1, h2⟩, hds⟩ := hd
    simp only [List.foldl_cons, List.length_cons] at hb hj ⊢
    have hge := decimalFold_ge fs (10 * x + (c - 48))
    have e : x * 10 + c - 48 = 10 * x + (c - 48) := by omega
    have hscale : round64 ((10 : ℚ) ^ j * 10) = (10 : ℚ) ^ (j + 1) := by
      have hcast : (10 : ℚ) ^ j * 10 = ((10 ^ (j + 1) : ℕ) : ℚ) := by
        push_cast
        ring
      rw [hcast, round64_natCast _ (pow10_lt_two53 (j + 1) (by omega))]
      push_cast
      ring
    have hrec := ih (10 * x + (c - 48)) (j + 1) hds hb (by omega)
    have hlen : j + 1 + fs.length = j + (fs.length + 1) := by omega
    rw [hlen] at hrec
    simp only [List.cons_append, leadingFraction, List.append_eq]
    rw [if_neg (by omega), if_neg (by simp), if_neg (by omega), if_neg (by omega), e, hscale,
      hrec]

theorem takeWhile_dropWhile_stop (p : Nat → Bool) (u rest : Bytes)
    (hu : ∀ b ∈ u, p b = true) (hr : ∀ c, rest.head? = some c → p c = false) :
    (u ++ rest).takeWhile p = u ∧ (u ++ rest).dropWhile p = rest := by
  induction u with
  | nil =>
    cases rest with
    | nil => exact ⟨rfl, rfl⟩
    | cons c r =>
      have hc := hr c rfl
      simp [List.takeWhile, List.dropWhile, hc]
  | cons b u ih =>
    have hb := hu b (by simp)
    obtain ⟨i1, i2⟩ := ih fun x hx => hu x (by simp [hx])
    simp only [List.cons_append, List.takeWhile, List.dropWhile, hb, List.append_eq, i1, i2,
      and_self]

theorem parseFraction_no_point (s : Bytes) (h : ∀ c, s.head? = some c → c ≠ 46) :
    parseFraction s = (0, 1, s, false) := by
  unfold parseFraction
  split
  · rename_i s2
    exact absurd rfl (h 46 rfl)
  · rfl

theorem componentValue_whole (v unit : Nat) (scale : ℚ) (hu : 0 < unit)
    (h : v * unit ≤ 9223372036854775808) : componentValue v 0 scale unit = some (v * unit) := by
  unfold componentValue
  have hv : v ≤ 9223372036854775808 / unit := (Nat.le_div_iff_mul_le hu).2 h
  rw [if_neg (by omega)]
  simp only [Nat.lt_irrefl, if_false]
  rw [Nat.mod_eq_of_lt (by omega)]

theorem componentValue_frac (v f k prec : Nat) (hk : k ≤ prec) (hp : prec ≤ 15) (hf : 0 < f)
    (hfk : f * 10 ^ (prec - k) < 10 ^ prec)
    (h : v * 10 ^ prec + f * 10 ^ (prec - k) ≤ 9223372036854775808) :
    componentValue v f ((10 : ℚ) ^ k) (10 ^ prec) = some (v * 10 ^ prec + f * 10 ^ (prec - k)) := by
  unfold componentValue
  have hu : 0 < 10 ^ prec := by positivity
  have hpk : 0 < 10 ^ (prec - k) := by positivity
  have hv : v ≤ 9223372036854775808 / 10 ^ prec := (Nat.le_div_iff_mul_le hu).2 (by omega)
  have h53 := pow10_lt_two53 prec hp
  have hf53 : f < 2 ^ 53 := by
    have : f ≤ f * 10 ^ (prec - k) := Nat.le_mul_of_pos_right f hpk
    omega
  have hq : ((10 ^ prec : ℕ) : ℚ) / (10 : ℚ) ^ k = ((10 ^ (prec - k) : ℕ) : ℚ) := by
    have hsplit : prec = (prec - k) + k := by omega
    have hk0 : (10 : ℚ) ^ k ≠ 0 := pow_ne_zero _ (by norm_num)
    conv_lhs => rw [hsplit]
    push_cast
    rw [pow_add]
    field_simp
  have hprod : ((f : ℕ) : ℚ) * ((10 ^ (prec - k) : ℕ) : ℚ) = ((f * 10 ^ (prec - k) : ℕ) : ℚ) := by
    push_cast
    ring
  rw [if_neg (by omega), if_pos hf]
  simp only []
  rw [round64_natCast f hf53, round64_natCast (10 ^ prec) h53, hq,
    round64_natCast _ (pow10_lt_two53 (prec - k) (by omega)), hprod,
    round64_natCast _ (by omega), floatToUint64_natCast _ (by omega),
    Nat.mod_eq_of_lt (show v * 10 ^ prec < 18446744073709551616 by omega),
    Nat.mod_eq_of_lt (show v * 10 ^ prec + f * 10 ^ (prec - k) < 18446744073709551616 by omega),
    if_neg (by omega)]

/-- One iteration of the loop of `ParseDuration`, from the results of its steps. -/
theorem parseDurationLoop_step (quote : Bytes → Bytes) (orig : Bytes) (fuel c : Nat)
    (s0 : Bytes) (d v : Nat) (s1 : Bytes) (f : Nat) (scale : ℚ) (s3 : Bytes) (post : Bool)
    (uname s4 : Bytes) (unit v2 : Nat) (hc : isNumByte c = true)
    (hli : leadingInt (c :: s0) 0 = some (v, s1)) (hpre : (c :: s0).length ≠ s1.length)
    (hpf : parseFraction s1 = (f, scale, s3, post))
    (htw : (s3.takeWhile fun b => !isNumByte b) = uname)
    (hdw : (s3.dropWhile fun b => !isNumByte b) = s4) (hne : uname ≠ [])
    (hlk : unitMap.lookup uname = some unit) (hcv : componentValue v f scale unit = some v2)
    (hsum : d + v2 ≤ 9223372036854775808) :
    parseDurationLoop quote orig (fuel + 1) (c :: s0) d
      = parseDurationLoop quote orig fuel s4 (d + v2) := by
  have hmod : (d + v2) % 18446744073709551616 = d + v2 := Nat.mod_eq_of_lt (by omega)
  simp only [parseDurationLoop, hc, hli, hpf, htw, hdw, hlk, hcv, hmod]
  simp [hpre, hne]
  have hpre1 : ¬ (s0.length + 1 = s1.length ∧ post = false) :=
    fun h => hpre (by simpa using h.1)
  rw [if_neg hpre1, if_neg (by omega)]

theorem isNumByte_of_isDigit (c : Nat) (h : isDigit c = true) : isNumByte c = true := by
  simp only [isDigit, Bool.and_eq_true, decide_eq_true_eq] at h
  simp [isNumByte, h.1, h.2]

theorem not_isNumByte (b : Nat) (h : isNumByte b = false) : isDigit b = false ∧ b ≠ 46 := by
  simp only [isNumByte, Bool.or_eq_false_iff, decide_eq_false_iff_not] at h
  exact ⟨by simpa [isDigit] using h.2, h.1⟩

/-- The digits that `fmtInt` writes: a first digit and the rest. -/
theorem fmtDigits_cons (v : Nat) :
    ∃ c ds, fmtDigits v v [] = c :: ds ∧ isDigit c = true ∧ (c :: ds).all isDigit = true ∧
      decimalValue (c :: ds) = v := by
  obtain ⟨h1, h2, h3⟩ := fmtDigits_spec v v (Nat.le_refl _)
  rcases hds : fmtDigits v v [] with _ | ⟨c, ds⟩
  · exact absurd hds h1
  · rw [hds] at h2 h3
    refine ⟨c, ds, rfl, ?_, h2, h3⟩
    simp only [List.all_cons, Bool.and_eq_true] at h2
    exact h2.1

/-- A component without fraction: digits of `v` and a unit. -/
theorem parse_component_whole (quote : Bytes → Bytes) (orig : Bytes) (fuel d v : Nat)
    (uname rest : Bytes) (unit : Nat) (hlk : unitMap.lookup uname = some unit)
    (hne : uname ≠ []) (hun : ∀ b ∈ uname, isNumByte b = false)
    (hrest : ∀ c, rest.head? = some c → isNumByte c = true)
    (hv : v ≤ 922337203685477580) (hu : 0 < unit)
    (hsum : d + v * unit ≤ 9223372036854775808) :
    parseDurationLoop quote orig (fuel + 1) (fmtDigits v v [] ++ (uname ++ rest)) d
      = parseDurationLoop quote orig fuel rest (d + v * unit) := by
  obtain ⟨c, ds, hds, hc, hall, hval⟩ := fmtDigits_cons v
  have hhead : ∀ x, (uname ++ rest).head? = some x → isNumByte x = false := by
    intro x hx
    cases uname with
    | nil => exact absurd rfl hne
    | cons b us =>
      simp only [List.cons_append, List.head?_cons, Option.some.injEq] at hx
      subst hx
      exact hun _ (by simp)
  have hli : leadingInt (c :: (ds ++ (uname ++ rest))) 0 = some (v, uname ++ rest) := by
    have := leadingInt_digits (c :: ds) (uname ++ rest) 0 hall
      (fun x hx => (not_isNumByte x (hhead x hx)).1)
      (by
        have : decimalValue (c :: ds) = v := hval
        unfold decimalValue at this
        rw [this]
        exact hv)
    rw [← hval]
    exact this
  have htd := takeWhile_dropWhile_stop (fun b => !isNumByte b) uname rest
    (fun b hb => by simp [hun b hb]) (fun x hx => by simp [hrest x hx])
  rw [hds]
  exact parseDurationLoop_step quote orig fuel c (ds ++ (uname ++ rest)) d v (uname ++ rest) 0 1
    (uname ++ rest) false uname rest unit (v * unit) (isNumByte_of_isDigit c hc) hli
    (by simp only [List.length_cons, List.length_append]; omega)
    (parseFraction_no_point _ fun x hx => (not_isNumByte x (hhead x hx)).2)
    htd.1 htd.2 hne hlk (componentValue_whole v unit 1 hu (by omega)) hsum

/-- A component with a fraction: digits of `v`, a point, the digits `fs` and a
unit of `10^prec` nanoseconds. -/
theorem parse_component_frac (quote : Bytes → Bytes) (orig : Bytes) (fuel d v : Nat)
    (fs uname rest : Bytes) (prec : Nat) (hlk : unitMap.lookup uname = some (10 ^ prec))
    (hne : uname ≠ []) (hun : ∀ b ∈ uname, isNumByte b = false)
    (hrest : ∀ c, rest.head? = some c → isNumByte c = true)
    (hv : v ≤ 922337203685477580) (hfs : fs.all isDigit = true) (hk1 : 1 ≤ fs.length)
    (hk : fs.length ≤ prec) (hp : prec ≤ 15) (hf : 0 < decimalValue fs)
    (hfk : decimalValue fs * 10 ^ (prec - fs.length) < 10 ^ prec)
    (hsum : d + (v * 10 ^ prec + decimalValue fs * 10 ^ (prec - fs.length))
      ≤ 9223372036854775808) :
    parseDurationLoop quote orig (fuel + 1)
        (fmtDigits v v [] ++ (46 :: (fs ++ (uname ++ rest)))) d
      = parseDurationLoop quote orig fuel rest
        (d + (v * 10 ^ prec + decimalValue fs * 10 ^ (prec - fs.length))) := by
  obtain ⟨c, ds, hds, hc, hall, hval⟩ := fmtDigits_cons v
  have hhead : ∀ x, (uname ++ rest).head? = some x → isNumByte x = false := by
    intro x hx
    cases uname with
    | nil => exact absurd rfl hne
    | cons b us =>
      simp only [List.cons_append, List.head?_cons, Option.some.injEq] at hx
      subst hx
      exact hun _ (by simp)
  have hli : leadingInt (c :: (ds ++ (46 :: (fs ++ (uname ++ rest))))) 0
      = some (v, 46 :: (fs ++ (uname ++ rest))) := by
    have := leadingInt_digits (c :: ds) (46 :: (fs ++ (uname ++ rest))) 0 hall
      (fun x hx => by
        simp only [List.head?_cons, Option.some.injEq] at hx
        subst hx
        decide)
      (by
        have : decimalValue (c :: ds) = v := hval
        unfold decimalValue at this
        rw [this]
        exact hv)
    rw [← hval]
    exact this
  have hfb : decimalValue fs ≤ 922337203685477580 := by
    have h1 : decimalValue fs ≤ decimalValue fs * 10 ^ (prec - fs.length) :=
      Nat.le_mul_of_pos_right _ (by positivity)
    have h2 : 10 ^ prec ≤ 10 ^ 15 := Nat.pow_le_pow_right (by decide) hp
    have h3 : (10 : Nat) ^ 15 = 1000000000000000 := by norm_num
    omega
  have hlf := leadingFraction_digits fs (uname ++ rest) 0 0 hfs
    (fun x hx => (not_isNumByte x (hhead x hx)).1) hfb (by omega)
  have hpf : parseFraction (46 :: (fs ++ (uname ++ rest)))
      = (decimalValue fs, (10 : ℚ) ^ fs.length, uname ++ rest, true) := by
    have h1 : (1 : ℚ) = (10 : ℚ) ^ 0 := by norm_num
    simp only [parseFraction]
    rw [h1, hlf]
    simp only [Nat.zero_add, List.length_append, decimalValue, Prod.mk.injEq, true_and,
      decide_eq_true_eq]
    omega
  have htd := takeWhile_dropWhile_stop (fun b => !isNumByte b) uname rest
    (fun b hb => by simp [hun b hb]) (fun x hx => by simp [hrest x hx])
  rw [hds]
  exact parseDurationLoop_step quote orig fuel c (ds ++ (46 :: (fs ++ (uname ++ rest)))) d v
    (46 :: (fs ++ (uname ++ rest))) (decimalValue fs) ((10 : ℚ) ^ fs.length) (uname ++ rest) true
    uname rest (10 ^ prec) (v * 10 ^ prec + decimalValue fs * 10 ^ (prec - fs.length))
    (isNumByte_of_isDigit c hc) hli
    (by simp only [List.length_cons, List.length_append]; omega) hpf htd.1 htd.2 hne hlk
    (componentValue_frac v (decimalValue fs) fs.length prec hk hp hf hfk (by omega)) hsum

theorem fmtDigits_length_pos (v : Nat) : 1 ≤ (fmtDigits v v []).length := by
  obtain ⟨c, ds, hds, -⟩ := fmtDigits_cons v
  rw [hds]
  simp

theorem fmtDigits_head (v : Nat) (rest : Bytes) :
    ∀ c, (fmtDigits v v [] ++ rest).head? = some c → isNumByte c = true := by
  obtain ⟨c, ds, hds, hc, -⟩ := fmtDigits_cons v
  intro x hx
  rw [hds] at hx
  simp only [List.cons_append, List.head?_cons, Option.some.injEq] at hx
  subst hx
  exact isNumByte_of_isDigit _ hc

/-- A component without fraction followed by more text: the loop goes on after
it with enough iterations left. -/
theorem parse_whole_then (quote : Bytes → Bytes) (orig : Bytes) (fuel d v : Nat)
    (uname rest : Bytes) (unit : Nat) (hlk : unitMap.lookup uname = some unit)
    (hne : uname ≠ []) (hun : ∀ b ∈ uname, isNumByte b = false)
    (hrest : ∀ c, rest.head? = some c → isNumByte c = true)
    (hv : v ≤ 922337203685477580) (hu : 0 < unit)
    (hsum : d + v * unit ≤ 9223372036854775808)
    (hfuel : (fmtDigits v v [] ++ (uname ++ rest)).length < fuel) :
    ∃ fuel1, rest.length < fuel1 ∧
      parseDurationLoop quote orig fuel (fmtDigits v v [] ++ (uname ++ rest)) d
        = parseDurationLoop quote orig fuel1 rest (d + v * unit) := by
  obtain ⟨f1, rfl⟩ : ∃ f1, fuel = f1 + 1 := ⟨fuel - 1, by omega⟩
  refine ⟨f1, ?_, parse_component_whole quote orig f1 d v uname rest unit hlk hne hun hrest hv hu
    hsum⟩
  have := fmtDigits_length_pos v
  simp only [List.length_append] at hfuel
  omega

theorem parseDurationLoop_nil (quote : Bytes → Bytes) (orig : Bytes) (fuel d : Nat)
    (h : 0 < fuel) : parseDurationLoop quote orig fuel [] d = .ok d := by
  obtain ⟨f1, rfl⟩ : ∃ f1, fuel = f1 + 1 := ⟨fuel - 1, by omega⟩
  simp [parseDurationLoop]

/-- The last component of a text, as `fmtFrac` and `fmtInt` write it for a unit
of `10^prec` nanoseconds: the loop ends with the sum. -/
theorem parse_last (quote : Bytes → Bytes) (orig : Bytes) (fuel d v w prec : Nat)
    (uname : Bytes) (hlk : unitMap.lookup uname = some (10 ^ prec)) (hne : uname ≠ [])
    (hun : ∀ b ∈ uname, isNumByte b = false) (hv : v ≤ 922337203685477580) (hp : prec ≤ 15)
    (hsum : d + (v * 10 ^ prec + w % 10 ^ prec) ≤ 9223372036854775808)
    (hfuel : (fmtInt (fmtFrac uname w prec).1 v).length < fuel) :
    parseDurationLoop quote orig fuel (fmtInt (fmtFrac uname w prec).1 v) d
      = .ok (d + (v * 10 ^ prec + w % 10 ^ prec)) := by
  have hpos : 0 < 10 ^ prec := by positivity
  have hlen := fmtDigits_length_pos v
  rw [fmtInt_eq] at hfuel ⊢
  obtain ⟨f1, rfl⟩ : ∃ f1, fuel = f1 + 1 := ⟨fuel - 1, by omega⟩
  have hnil : ∀ c, ([] : Bytes).head? = some c → isNumByte c = true := fun c hc => by cases hc
  have hf1 : 0 < f1 := by
    have hu1 : 1 ≤ uname.length := List.length_pos.2 hne
    rcases fmtFrac_spec uname w prec with ⟨-, hres⟩ | ⟨fs, hres, -⟩
    · rw [hres] at hfuel
      simp only [List.length_append] at hfuel
      omega
    · rw [hres] at hfuel
      simp only [List.length_append, List.length_cons] at hfuel
      omega
  rcases fmtFrac_spec uname w prec with ⟨hz, hres⟩ | ⟨fs, hres, h2, h3, h4, h5, h6⟩
  · rw [hres]
    have := parse_component_whole quote orig f1 d v uname [] (10 ^ prec) hlk hne hun hnil hv hpos
      (by omega)
    rw [List.append_nil] at this
    rw [this, parseDurationLoop_nil _ _ _ _ hf1, hz, Nat.add_zero]
  · rw [hres]
    have hmodlt : w % 10 ^ prec < 10 ^ prec := Nat.mod_lt _ hpos
    have hfpos : 0 < decimalValue fs := by
      rcases Nat.eq_zero_or_pos (decimalValue fs) with h0 | h0
      · rw [h0, Nat.zero_mul] at h5
        omega
      · exact h0
    have := parse_component_frac quote orig f1 d v fs uname [] prec hlk hne hun hnil hv h2 h3 h4
      hp hfpos (by omega) (by omega)
    rw [List.append_nil] at this
    rw [this, parseDurationLoop_nil _ _ _ _ hf1, h5]

theorem durationFormat_natCast (u : Nat) (hu : u < 18446744073709551616) :
    durationFormat (u : Int) =
      if u < 1000000000 then
        if u = 0 then ascii "0s"
        else
          fmtInt (fmtFrac (if u < 1000 then ascii "ns" else if u < 1000000 then [194, 181, 115]
              else ascii "ms") u (if u < 1000 then 0 else if u < 1000000 then 3 else 6)).1
            (fmtFrac (if u < 1000 then ascii "ns" else if u < 1000000 then [194, 181, 115]
              else ascii "ms") u (if u < 1000 then 0 else if u < 1000000 then 3 else 6)).2
      else
        if 0 < (fmtFrac (ascii "s") u 9).2 / 60 then
          if 0 < (fmtFrac (ascii "s") u 9).2 / 60 / 60 then
            fmtInt (104 :: fmtInt (109 :: fmtInt (fmtFrac (ascii "s") u 9).1
              ((fmtFrac (ascii "s") u 9).2 % 60)) ((fmtFrac (ascii "s") u 9).2 / 60 % 60))
              ((fmtFrac (ascii "s") u 9).2 / 60 / 60)
          else
            fmtInt (109 :: fmtInt (fmtFrac (ascii "s") u 9).1
              ((fmtFrac (ascii "s") u 9).2 % 60)) ((fmtFrac (ascii "s") u 9).2 / 60 % 60)
        else fmtInt (fmtFrac (ascii "s") u 9).1 ((fmtFrac (ascii "s") u 9).2 % 60) := by
  have e1 : ((u : Int) % 18446744073709551616).toNat = u := by omega
  have e2 : decide ((u : Int) < 0) = false := decide_eq_false (by omega)
  unfold durationFormat
  simp only [e1, e2, Bool.false_eq_true, if_false]

theorem fmtFrac_snd (buf : Bytes) (v prec : Nat) : (fmtFrac buf v prec).2 = v / 10 ^ prec := by
  rcases fmtFrac_spec buf v prec with ⟨-, hres⟩ | ⟨fs, hres, -⟩ <;> rw [hres]

/-- The text of a magnitude `u` up to 2^63, read back by the loop of
`ParseDuration`, gives `u`. -/
theorem parse_durationFormat_nat (quote : Bytes → Bytes) (orig : Bytes) (u fuel : Nat)
    (hu : u ≤ 9223372036854775808) (hfuel : (durationFormat (u : Int)).length < fuel) :
    parseDurationLoop quote orig fuel (durationFormat (u : Int)) 0 = .ok u := by
  have h3 : (10 : Nat) ^ 3 = 1000 := by norm_num
  have h6 : (10 : Nat) ^ 6 = 1000000 := by norm_num
  have h9 : (10 : Nat) ^ 9 = 1000000000 := by norm_num
  have hs : unitMap.lookup (ascii "s") = some (10 ^ 9) := rfl
  have hsn : ∀ b ∈ ascii "s", isNumByte b = false := by decide
  rw [durationFormat_natCast u (by omega)] at hfuel ⊢
  by_cases hsec : u < 1000000000
  · rw [if_pos hsec] at hfuel ⊢
    by_cases h0 : u = 0
    · subst h0
      rw [if_pos rfl] at hfuel ⊢
      have e : ascii "0s" = fmtInt (fmtFrac (ascii "s") 0 9).1 0 := by decide
      rw [e] at hfuel ⊢
      rw [parse_last quote orig fuel 0 0 0 9 (ascii "s") hs (by decide) hsn (by omega)
        (by omega) (by omega) hfuel]
      rfl
    · rw [if_neg h0] at hfuel ⊢
      by_cases hns : u < 1000
      · simp only [if_pos hns] at hfuel ⊢
        rw [fmtFrac_snd] at hfuel ⊢
        rw [parse_last quote orig fuel 0 (u / 10 ^ 0) u 0 (ascii "ns") rfl (by decide)
          (by decide) (by simp; omega) (by omega) (by simp; omega) hfuel]
        simp [Nat.mod_one]
      · simp only [if_neg hns] at hfuel ⊢
        by_cases hus : u < 1000000
        · simp only [if_pos hus] at hfuel ⊢
          rw [fmtFrac_snd] at hfuel ⊢
          rw [parse_last quote orig fuel 0 (u / 10 ^ 3) u 3 [194, 181, 115] rfl (by decide)
            (by decide) (by rw [h3]; omega) (by omega) (by rw [h3]; omega) hfuel]
          rw [h3]
          congr 1
          omega
        · simp only [if_neg hus] at hfuel ⊢
          rw [fmtFrac_snd] at hfuel ⊢
          rw [parse_last quote orig fuel 0 (u / 10 ^ 6) u 6 (ascii "ms") rfl (by decide)
            (by decide) (by rw [h6]; omega) (by omega) (by rw [h6]; omega) hfuel]
          rw [h6]
          congr 1
          omega
  · rw [if_neg hsec] at hfuel ⊢
    rw [fmtFrac_snd] at hfuel ⊢
    rw [h9] at hfuel ⊢
    have hm : unitMap.lookup (ascii "m") = some 60000000000 := rfl
    have hh : unitMap.lookup (ascii "h") = some 3600000000000 := rfl
    have hmn : ∀ b ∈ ascii "m", isNumByte b = false := by decide
    have hhn : ∀ b ∈ ascii "h", isNumByte b = false := by decide
    by_cases hmin : 0 < u / 1000000000 / 60
    · rw [if_pos hmin] at hfuel ⊢
      by_cases hhour : 0 < u / 1000000000 / 60 / 60
      · rw [if_pos hhour] at hfuel ⊢
        rw [fmtInt_eq (104 :: _), fmtInt_eq (109 :: _)] at hfuel ⊢
        have hfuel1 : (fmtDigits (u / 1000000000 / 60 / 60) (u / 1000000000 / 60 / 60) [] ++
            (ascii "h" ++ (fmtDigits (u / 1000000000 / 60 % 60) (u / 1000000000 / 60 % 60) [] ++
              (ascii "m" ++ fmtInt (fmtFrac (ascii "s") u 9).1 (u / 1000000000 % 60))))).length
            < fuel := hfuel
        obtain ⟨f1, hf1, hr1⟩ := parse_whole_then quote orig fuel 0 (u / 1000000000 / 60 / 60)
          (ascii "h") _ 3600000000000 hh (by decide) hhn (fmtDigits_head _ _) (by omega)
          (by omega) (by omega) hfuel1
        obtain ⟨f2, hf2, hr2⟩ := parse_whole_then quote orig f1
          (0 + u / 1000000000 / 60 / 60 * 3600000000000) (u / 1000000000 / 60 % 60)
          (ascii "m") (fmtInt (fmtFrac (ascii "s") u 9).1 (u / 1000000000 % 60)) 60000000000 hm
          (by decide) hmn (by rw [fmtInt_eq]; exact fmtDigits_head _ _) (by omega) (by omega)
          (by omega) hf1
        have hlast := parse_last quote orig f2
          (0 + u / 1000000000 / 60 / 60 * 3600000000000 + u / 1000000000 / 60 % 60 * 60000000000)
          (u / 1000000000 % 60) u 9 (ascii "s") hs (by decide) hsn (by omega) (by omega)
          (by rw [h9]; omega) hf2
        exact (hr1.trans (hr2.trans hlast)).trans (by rw [h9]; congr 1; omega)
      · rw [if_neg hhour] at hfuel ⊢
        rw [fmtInt_eq (109 :: _)] at hfuel ⊢
        have hfuel1 : (fmtDigits (u / 1000000000 / 60 % 60) (u / 1000000000 / 60 % 60) [] ++
            (ascii "m" ++ fmtInt (fmtFrac (ascii "s") u 9).1 (u / 1000000000 % 60))).length
            < fuel := hfuel
        obtain ⟨f2, hf2, hr2⟩ := parse_whole_then quote orig fuel 0 (u / 1000000000 / 60 % 60)
          (ascii "m") (fmtInt (fmtFrac (ascii "s") u 9).1 (u / 1000000000 % 60)) 60000000000 hm
          (by decide) hmn (by rw [fmtInt_eq]; exact fmtDigits_head _ _) (by omega) (by omega)
          (by omega) hfuel1
        have hlast := parse_last quote orig f2 (0 + u / 1000000000 / 60 % 60 * 60000000000)
          (u / 1000000000 % 60) u 9 (ascii "s") hs (by decide) hsn (by omega) (by omega)
          (by rw [h9]; omega) hf2
        exact (hr2.trans hlast).trans (by rw [h9]; congr 1; omega)
    · rw [if_neg hmin] at hfuel ⊢
      rw [parse_last quote orig fuel 0 (u / 1000000000 % 60) u 9 (ascii "s") hs (by decide) hsn
        (by omega) (by omega) (by rw [h9]; omega) hfuel]
      rw [h9]
      congr 1
      omega

/-! ## Duration: the round trip -/

/-- The text of a negative duration is a minus sign and the text of its
magnitude. -/
theorem durationFormat_neg (n : Nat) (h0 : 0 < n) (hn : n ≤ 9223372036854775808) :
    durationFormat (-(n : Int)) = 45 :: durationFormat (n : Int) := by
  have e1 : ((-(n : Int)) % 18446744073709551616).toNat = 18446744073709551616 - n := by omega
  have e2 : decide (-(n : Int) < 0) = true := decide_eq_true (by omega)
  have e3 : (18446744073709551616 - (18446744073709551616 - n)) % 18446744073709551616 = n := by
    omega
  have e4 : ((n : Int) % 18446744073709551616).toNat = n := by omega
  have e5 : decide ((n : Int) < 0) = false := decide_eq_false (by omega)
  have e6 : ¬ n = 0 := by omega
  unfold durationFormat
  simp only [e1, e2, e3, e4, e5, if_true, Bool.false_eq_true, if_false, if_neg e6]
  split_ifs <;> rfl

theorem fmtInt_shape (buf : Bytes) (v : Nat) (hb : buf ≠ []) :
    ∃ c rest, fmtInt buf v = c :: rest ∧ isDigit c = true ∧ rest ≠ [] := by
  obtain ⟨c, ds, hds, hc, -⟩ := fmtDigits_cons v
  exact ⟨c, ds ++ buf, by rw [fmtInt_eq, hds]; rfl, hc, by simp [hb]⟩

theorem fmtFrac_ne_nil (buf : Bytes) (v prec : Nat) (hb : buf ≠ []) :
    (fmtFrac buf v prec).1 ≠ [] := by
  rcases fmtFrac_spec buf v prec with ⟨-, hres⟩ | ⟨fs, hres, -⟩ <;> rw [hres]
  · exact hb
  · simp

/-- The text of a magnitude starts with a digit and has a second byte. -/
theorem durationFormat_shape (u : Nat) (hu : u < 18446744073709551616) :
    ∃ c rest, durationFormat (u : Int) = c :: rest ∧ isDigit c = true ∧ rest ≠ [] := by
  rw [durationFormat_natCast u hu]
  split_ifs
  · exact ⟨48, ascii "s", rfl, by decide, by decide⟩
  all_goals
    first
    | exact fmtInt_shape _ _ (fmtFrac_ne_nil _ _ _ (by decide))
    | exact fmtInt_shape _ _ (by simp)

theorem ParseDuration_minus (quote : Bytes → Bytes) (t : Bytes) (n : Nat)
    (h0 : t ≠ ascii "0") (h1 : t ≠ [])
    (hloop : parseDurationLoop quote (45 :: t) (t.length + 1) t 0 = .ok n) :
    ParseDuration quote (45 :: t) = .ok (wrapInt64 (-(wrapInt64 (n : Int)))) := by
  unfold ParseDuration
  simp only [List.head?_cons, decide_True, true_or, if_true, if_neg h0, if_neg h1, hloop]

theorem ParseDuration_plain (quote : Bytes → Bytes) (c : Nat) (rest : Bytes) (n : Nat)
    (hc : c ≠ 45) (hc2 : c ≠ 43) (h0 : c :: rest ≠ ascii "0")
    (hn : n ≤ 9223372036854775807)
    (hloop : parseDurationLoop quote (c :: rest) ((c :: rest).length + 1) (c :: rest) 0 = .ok n) :
    ParseDuration quote (c :: rest) = .ok (wrapInt64 (n : Int)) := by
  have hh : ¬ (c = 45 ∨ c = 43) := by omega
  have hd : decide ((c :: rest).head? = some 45) = false := by
    simp only [List.head?_cons, Option.some.injEq, decide_eq_false_iff_not]
    exact hc
  have hn1 : ¬ 9223372036854775807 < n := by omega
  unfold ParseDuration
  simp only [hd, if_neg hh, if_neg h0, hloop, Bool.false_eq_true, if_false, if_neg hn1,
    reduceCtorEq]

/-- The text that `String` writes for a duration is read back by
`ParseDuration` as that duration. -/
theorem ParseDuration_durationFormat (quote : Bytes → Bytes) (d : Int) (hd : fitsInt64 d) :
    ParseDuration quote (durationFormat d) = .ok d := by
  obtain ⟨hlo, hhi⟩ := hd
  by_cases hneg : d < 0
  · obtain ⟨n, rfl⟩ : ∃ n : Nat, d = -(n : Int) := ⟨d.natAbs, by omega⟩
    have hn0 : 0 < n := by omega
    have hn : n ≤ 9223372036854775808 := by omega
    obtain ⟨c, rest, hs, hc, hr⟩ := durationFormat_shape n (by omega)
    rw [durationFormat_neg n hn0 hn]
    have hloop := parse_durationFormat_nat quote (45 :: durationFormat (n : Int)) n
      ((durationFormat (n : Int)).length + 1) hn (by omega)
    rw [ParseDuration_minus quote _ n (by rw [hs]; intro h; cases h; exact hr rfl)
      (by rw [hs]; exact List.cons_ne_nil _ _) hloop]
    have hw : wrapInt64 (-(wrapInt64 (n : Int))) = -(n : Int) := by
      unfold wrapInt64
      omega
    rw [hw]
  · obtain ⟨n, rfl⟩ : ∃ n : Nat, d = (n : Int) := ⟨d.toNat, by omega⟩
    have hn : n ≤ 9223372036854775807 := by omega
    obtain ⟨c, rest, hs, hc, hr⟩ := durationFormat_shape n (by omega)
    have hloop := parse_durationFormat_nat quote (durationFormat (n : Int)) n
      ((durationFormat (n : Int)).length + 1) (by omega) (by omega)
    rw [hs] at hloop ⊢
    have hc1 : 48 ≤ c ∧ c ≤ 57 := by simpa [isDigit] using hc
    rw [ParseDuration_plain quote c rest n (by omega) (by omega)
      (by intro h; cases h; exact hr rfl) hn hloop]
    have hw : wrapInt64 (n : Int) = (n : Int) := by
      unfold wrapInt64
      omega
    rw [hw]

theorem wrapInt64_fits (z : Int) : fitsInt64 (wrapInt64 z) := by
  unfold fitsInt64 wrapInt64
  omega

/-- What `ParseDuration` returns is an `int64`. -/
theorem ParseDuration_fits (quote : Bytes → Bytes) (t : Bytes) (dd : Int)
    (h : ParseDuration quote t = .ok dd) : fitsInt64 dd := by
  have h0 : fitsInt64 0 := by
    unfold fitsInt64
    omega
  unfold ParseDuration at h
  simp only at h
  split_ifs at h with h1 h2
  · injection h with h
    rw [← h]
    exact h0
  · split at h
    · injection h
    · injection h with h
      rw [← h]
      exact wrapInt64_fits _
  · split at h
    · injection h
    · split_ifs at h
      injection h with h
      rw [← h]
      exact wrapInt64_fits _

theorem Duration_unmarshal_marshal (quote : Bytes → Bytes) (d0 d : Duration)
    (hd : fitsInt64 d) :
    Duration.UnmarshalText quote d0 (Duration.MarshalText d).1 = (d, none) := by
  unfold Duration.UnmarshalText Duration.MarshalText
  simp only [ParseDuration_durationFormat quote d hd]

theorem Duration_unmarshal_fits (quote : Bytes → Bytes) (d0 : Duration) (t : Bytes)
    (h : (Duration.UnmarshalText quote d0 t).2 = none) :
    fitsInt64 (Duration.UnmarshalText quote d0 t).1 := by
  unfold Duration.UnmarshalText at h ⊢
  rcases hp : ParseDuration quote t with err | dd
  · rw [hp] at h
    cases h
  · exact ParseDuration_fits quote t dd hp

/-- C7: with `time.Duration.String` and `time.ParseDuration` as the Go standard
library has them today, for every `Duration` `d` in the `int64` range, zero,
the negative values and the minimum value included, `MarshalText` returns no
error and `UnmarshalText` of the bytes it returns succeeds and sets the
receiver to exactly `d`; and for every text `t` that `UnmarshalText` accepts,
encoding the decoded value and decoding it again gives the decoded value. -/
theorem Duration_roundtrip (quote : Bytes → Bytes) (d0 d1 : Duration) :
    (∀ d : Duration, fitsInt64 d →
      (Duration.MarshalText d).2 = none ∧
      Duration.UnmarshalText quote d0 (Duration.MarshalText d).1 = (d, none)) ∧
    (∀ t : Bytes, (Duration.UnmarshalText quote d0 t).2 = none →
      Duration.UnmarshalText quote d1
          (Duration.MarshalText (Duration.UnmarshalText quote d0 t).1).1 =
        ((Duration.UnmarshalText quote d0 t).1, none)) :=
  ⟨fun d hd => ⟨rfl, Duration_unmarshal_marshal quote d0 d hd⟩,
   fun t h => Duration_unmarshal_marshal quote d1 _ (Duration_unmarshal_fits quote d0 t h)⟩

theorem Duration_roundtrip_witness :
    fitsInt64 (-9223372036854775808) ∧
    Duration.UnmarshalText id 0 (Duration.MarshalText (-9223372036854775808)).1 =
      (-9223372036854775808, none) ∧
    (Duration.UnmarshalText id 0 (ascii "1500ms")).2 = none ∧
    Duration.UnmarshalText id 7
        (Duration.MarshalText (Duration.UnmarshalText id 0 (ascii "1500ms")).1).1 =
      ((Duration.UnmarshalText id 0 (ascii "1500ms")).1, none) :=
  ⟨by decide, ((Duration_roundtrip id 0 7).1 _ (by decide)).2, rfl,
   (Duration_roundtrip id 0 7).2 _ rfl⟩

end Config
